import Mathlib

/-!
Verification development for the resilience core of the repository
(`agents/gemini_utils.py`): a multi-credential, multi-model fallback
router with a persisted, date-scoped quota state.

The Python source is embedded shallowly:

* error-message classification (the inline string tests and the two
  `re.search` patterns of `gemini_with_retry`) becomes executable
  functions on `String` / `List Char`;
* the quota state (`_QuotaState`) becomes the structure `QS` with the
  operations `is_exhausted` / `mark_exhausted` (the latter also reports
  whether a flush to disk happened, mirroring that `_save` runs only on
  an actual append);
* the three nested loops of `gemini_with_retry` (keys, models, attempts)
  become the structurally recursive functions `keyLoop`, `modelLoop`,
  `attemptLoop`.  The unit of work is an oracle `work : Nat → Outcome`
  consumed once per underlying call, and every observable action is
  recorded in an event list (`REv`): one `call` per underlying request,
  one `mark` per actual state append, one `sleep` per backoff wait;
* `_QuotaState._load` becomes `quota_load` over a small JSON value model
  (`JVal`), distinguishing a missing file, a file `json.load` cannot
  decode, and a decoded JSON document of arbitrary shape;
* `_load_api_keys` becomes `load_api_keys` over the ordered list of
  optional configuration slot values;
* the module-import-time construction `_quota_state = _QuotaState()`
  (line 94 of the source) and the start of `gemini_with_retry` become
  the small event-trace model `processTrace`.

Python floats for backoff waits are represented by `Rat`; the waits the
code computes (`float(m.group(1)) + 2` and `10 * attempt`) are exact
decimals, so no rounding behavior matters for the stated claims.
-/

/-! ## String scanning helpers (Python `in`, `str.lower`, `re.search`) -/

/-- Does `sub` occur at the head of `cs`? -/
def listStartsWith : List Char → List Char → Bool
  | _, [] => true
  | [], _ :: _ => false
  | a :: as, b :: bs => a = b && listStartsWith as bs

/-- Does `sub` occur anywhere in `cs`?  (Python's `sub in s`.) -/
def listContainsSub : List Char → List Char → Bool
  | [], sub => sub.isEmpty
  | s@(_ :: rest), sub => listStartsWith s sub || listContainsSub rest sub

/-- Python `sub in s` on strings. -/
def strContains (s sub : String) : Bool := listContainsSub s.data sub.data

/-- Python `s.lower()` (ASCII-faithful; all matched signatures are ASCII). -/
def strLower (s : String) : String := String.mk (s.data.map Char.toLower)

/-- Characters of the regex class `['\": ]` used in both `re.search`
patterns of the source (apostrophe, double quote, colon, space). -/
def isSepChar (c : Char) : Bool :=
  c = Char.ofNat 39 || c = Char.ofNat 34 || c = ':' || c = ' '

/-- Python regex word character (`\w`, ASCII range), used for `\b`. -/
def isWordChar (c : Char) : Bool := c.isAlphanum || c = '_'

/-- Match of `limit['\": ]+0\b` anchored at the head of `cs`
(source line 188).  The char class excludes `0`, so greedy separator
consumption is equivalent to the regex's backtracking. -/
def limitZeroAt (cs : List Char) : Bool :=
  listStartsWith cs ("limit".data) &&
    (let rest := cs.drop 5
     let seps := rest.takeWhile isSepChar
     let rest2 := rest.dropWhile isSepChar
     decide (0 < seps.length) &&
       (match rest2 with
        | [] => false
        | c0 :: tail =>
          c0 = '0' &&
            (match tail with
             | [] => true
             | c1 :: _ => !(isWordChar c1))))

/-- `re.search(r"limit['\": ]+0\b", ...)` as a Boolean: try every start
position left to right. -/
def searchLimitZero : List Char → Bool
  | [] => false
  | s@(_ :: rest) => limitZeroAt s || searchLimitZero rest

/-- `"404" in err or "NOT_FOUND" in err` (source line 172). -/
def is404 (err : String) : Bool :=
  strContains err "404" || strContains err "NOT_FOUND"

/-- `is_quota` (source lines 178-182). -/
def is_quota (err : String) : Bool :=
  strContains err "429" || strContains err "RESOURCE_EXHAUSTED" ||
    (strContains (strLower err) "quota" && strContains (strLower err) "limit")

/-- `is_daily` (source lines 187-190). -/
def is_daily (err : String) : Bool :=
  searchLimitZero err.data ||
    (strContains (strLower err) "quota" && strContains (strLower err) "exceeded")

/-- Value of a digit string (most significant first). -/
def digitsVal (ds : List Char) : Nat :=
  ds.foldl (fun acc c => acc * 10 + (c.toNat - 48)) 0

/-- Value of a fractional digit string as a rational. -/
def fracVal (ds : List Char) : Rat :=
  (digitsVal ds : Rat) / ((10 : Rat) ^ ds.length)

/-- Match of `retryDelay['\": ]+(\d+(?:\.\d+)?)` anchored at the head of
`cs`, returning the captured number (source line 198). -/
def retryDelayAt (cs : List Char) : Option Rat :=
  if listStartsWith cs ("retryDelay".data) then
    let rest := cs.drop 10
    let seps := rest.takeWhile isSepChar
    let rest2 := rest.dropWhile isSepChar
    if 0 < seps.length then
      let ints := rest2.takeWhile Char.isDigit
      let rest3 := rest2.dropWhile Char.isDigit
      if 0 < ints.length then
        match rest3 with
        | '.' :: rest4 =>
          let frs := rest4.takeWhile Char.isDigit
          if 0 < frs.length then some ((digitsVal ints : Rat) + fracVal frs)
          else some ((digitsVal ints : Rat))
        | _ => some ((digitsVal ints : Rat))
      else none
    else none
  else none

/-- Leftmost match of the `retryDelay` pattern (Python `re.search`). -/
def searchRetryDelay : List Char → Option Rat
  | [] => none
  | s@(_ :: rest) =>
    match retryDelayAt s with
    | some v => some v
    | none => searchRetryDelay rest

/-- Server-suggested retry delay parsed from an error message. -/
def retryDelayOf (err : String) : Option Rat := searchRetryDelay err.data

/-! ## Quota state (`_QuotaState`) -/

/-- In-memory quota state: `{"date": ..., "exhausted": [[ki, model], ...]}`.
The `exhausted` member is kept as a list, in append order, exactly like
the JSON array the source mutates. -/
structure QS where
  date : String
  exhausted : List (Nat × String)
deriving DecidableEq

/-- `_QuotaState.is_exhausted` (source lines 77-78). -/
def is_exhausted (qs : QS) (ki : Nat) (m : String) : Bool :=
  decide ((ki, m) ∈ qs.exhausted)

/-- `_QuotaState.mark_exhausted` (source lines 80-85).  The Boolean
records whether the state changed (and hence whether `_save`, the
synchronous flush to the backing file, ran). -/
def mark_exhausted (qs : QS) (ki : Nat) (m : String) : QS × Bool :=
  if (ki, m) ∈ qs.exhausted then (qs, false)
  else ({ qs with exhausted := qs.exhausted ++ [(ki, m)] }, true)

/-- `_QuotaState.summary` available count (source lines 87-91):
`total - dead` over the machine integers, so it may be negative. -/
def summaryAvail (qs : QS) (numKeys : Nat) (chain : List String) : Int :=
  (numKeys * chain.length : Int) - (qs.exhausted.length : Int)

/-! ## Router events, outcomes and results -/

/-- Outcome of one underlying call of the unit of work: the payload
returned, or the stringified raised exception. -/
inductive Outcome
  | success (payload : String)
  | failure (err : String)
deriving DecidableEq

/-- Observable router events: one `call` per underlying request, one
`mark` per actual append to the exhausted list, one `sleep` per
rate-limit backoff wait (seconds). -/
inductive REv
  | call (ki : Nat) (m : String)
  | mark (ki : Nat) (m : String)
  | sleep (w : Rat)
deriving DecidableEq

/-- The (credential index, model) pair of every `call` event, in order. -/
def callPairs (evs : List REv) : List (Nat × String) :=
  evs.filterMap (fun e => match e with | .call ki m => some (ki, m) | _ => none)

/-- The pair of every `mark` event, in order. -/
def marksOf (evs : List REv) : List (Nat × String) :=
  evs.filterMap (fun e => match e with | .mark ki m => some (ki, m) | _ => none)

/-- The durations of the `sleep` events, in order. -/
def sleepsOf (evs : List REv) : List Rat :=
  evs.filterMap (fun e => match e with | .sleep w => some w | _ => none)

/-- Number of underlying calls recorded in an event list. -/
def countCalls (evs : List REv) : Nat := (callPairs evs).length

/-- Terminal result of one `gemini_with_retry` execution. -/
inductive Final
  | ok (payload : String)
  | fatalErr (err : String)
  | allExhausted (date : String) (avail : Int) (total : Nat)
deriving DecidableEq

/-- Result of the per-pair attempt loop: a terminal result, or advance
to the next candidate pair. -/
inductive PairStep
  | finished (f : Final)
  | advance
deriving DecidableEq

structure PairOut where
  step : PairStep
  qs : QS
  n : Nat
  evs : List REv
deriving DecidableEq

structure ScanOut where
  res : Option Final
  qs : QS
  n : Nat
  evs : List REv
deriving DecidableEq

/-! ## Error classification -/

/-- Action taken by the attempt loop on a failed call, in the source's
branch order (lines 172-205): 404/NOT_FOUND, then non-quota re-raise,
then daily exhaustion, then the per-minute rate-limit path which either
waits (if attempts remain) or gives the pair up. -/
inductive FailAct
  | dead
  | fatalRaise
  | daily
  | rateRetry (w : Rat)
  | rateGiveUp
deriving DecidableEq

/-- The failure dispatch of `gemini_with_retry`'s inner loop, verbatim
from the source.  The wait of the retry branch is the parsed
`retryDelay` plus a 2-second buffer, or `10 * attempt` when no delay is
present (line 199). -/
def failAct (err : String) (attempt maxRetries : Nat) : FailAct :=
  if is404 err then .dead
  else if !(is_quota err) then .fatalRaise
  else if is_daily err then .daily
  else if attempt < maxRetries then
    .rateRetry
      (match retryDelayOf err with
       | some d => d + 2
       | none => 10 * (attempt : Rat))
  else .rateGiveUp

/-- The four-way error classifier of the specification, read off the
same predicates in the same order as the source's inline tests. -/
inductive ErrClass
  | dead
  | fatal
  | daily
  | rateLimited (d : Option Rat)
deriving DecidableEq

/-- `classify(rawError)`: not-found first, then non-quota as fatal, then
the daily/per-minute sub-classification of quota errors. -/
def classifyErr (err : String) : ErrClass :=
  if is404 err then .dead
  else if !(is_quota err) then .fatal
  else if is_daily err then .daily
  else .rateLimited (retryDelayOf err)

/-! ## The router loops (`gemini_with_retry`, source lines 114-226) -/

/-- `mark_exhausted` together with its event: a `mark` event is emitted
exactly when the state actually changed. -/
def markEvs (qs : QS) (ki : Nat) (m : String) : QS × List REv :=
  match mark_exhausted qs ki m with
  | (qs2, true) => (qs2, [REv.mark ki m])
  | (qs2, false) => (qs2, [])

/-- The innermost loop `for attempt in range(1, max_retries + 1)`
(source lines 160-205) for the pair `(ki, m)`.  `attempt` is the
1-based attempt counter of the source; the extra fuel argument is the
number of loop iterations remaining (`maxRetries + 1 - attempt` at every
reachable call) and only makes the recursion structural.  `n` is the
number of underlying calls made so far; the oracle `work` gives the
outcome of the `n`-th call. -/
def attemptLoop (work : Nat → Outcome) (maxRetries : Nat) (ki : Nat) (m : String) :
    Nat → Nat → QS → Nat → PairOut
  | _, 0, qs, n => ⟨.advance, qs, n, []⟩
  | attempt, fuel + 1, qs, n =>
    match work n with
    | .success p => ⟨.finished (.ok p), qs, n + 1, [REv.call ki m]⟩
    | .failure err =>
      match failAct err attempt maxRetries with
      | .dead =>
        let me := markEvs qs ki m
        ⟨.advance, me.1, n + 1, REv.call ki m :: me.2⟩
      | .fatalRaise => ⟨.finished (.fatalErr err), qs, n + 1, [REv.call ki m]⟩
      | .daily =>
        let me := markEvs qs ki m
        ⟨.advance, me.1, n + 1, REv.call ki m :: me.2⟩
      | .rateRetry w =>
        let po := attemptLoop work maxRetries ki m (attempt + 1) fuel qs (n + 1)
        ⟨po.step, po.qs, po.n, REv.call ki m :: REv.sleep w :: po.evs⟩
      | .rateGiveUp =>
        let me := markEvs qs ki m
        ⟨.advance, me.1, n + 1, REv.call ki m :: me.2⟩

/-- The middle loop `for model in model_chain` (source lines 156-205):
skip pairs already exhausted (re-reading the state, which may have
changed earlier in this same execution), otherwise run the attempt loop
and either stop with its terminal result or advance. -/
def modelLoop (work : Nat → Outcome) (maxRetries ki : Nat) :
    List String → QS → Nat → ScanOut
  | [], qs, n => ⟨none, qs, n, []⟩
  | m :: ms, qs, n =>
    if is_exhausted qs ki m then modelLoop work maxRetries ki ms qs n
    else
      let po := attemptLoop work maxRetries ki m 1 maxRetries qs n
      match po.step with
      | .finished f => ⟨some f, po.qs, po.n, po.evs⟩
      | .advance =>
        let so := modelLoop work maxRetries ki ms po.qs po.n
        ⟨so.res, so.qs, so.n, po.evs ++ so.evs⟩

/-- The outer loop `for key_idx, api_key in enumerate(api_keys)`
(source lines 142-215): skip a credential whose models are all
exhausted, skip a credential whose client cannot be initialized
(`clientOk`), otherwise run the model loop. -/
def keyLoop (work : Nat → Outcome) (maxRetries : Nat) (chain : List String)
    (clientOk : Nat → Bool) : List Nat → QS → Nat → ScanOut
  | [], qs, n => ⟨none, qs, n, []⟩
  | ki :: ks, qs, n =>
    if chain.all (fun m => is_exhausted qs ki m) then
      keyLoop work maxRetries chain clientOk ks qs n
    else if !(clientOk ki) then
      keyLoop work maxRetries chain clientOk ks qs n
    else
      let so := modelLoop work maxRetries ki chain qs n
      match so.res with
      | some f => ⟨some f, so.qs, so.n, so.evs⟩
      | none =>
        let so2 := keyLoop work maxRetries chain clientOk ks so.qs so.n
        ⟨so2.res, so2.qs, so2.n, so.evs ++ so2.evs⟩

/-- The candidate list built before anything runs (source lines
123-127). -/
def availablePairs (numKeys : Nat) (chain : List String) (qs : QS) :
    List (Nat × String) :=
  (List.range numKeys).flatMap (fun ki =>
    (chain.filter (fun m => !(is_exhausted qs ki m))).map (fun m => (ki, m)))

/-- Result of one execution: terminal result, final quota state, and
the full event list. -/
structure RunOut where
  final : Final
  qs : QS
  evs : List REv
deriving DecidableEq

/-- `gemini_with_retry` after key loading (source lines 119-226): the
empty-candidates precheck raising the terminal "all exhausted" error
with the diagnostic summary (date, available, total), then the nested
loops, then the same terminal error when every candidate was consumed
without success.  `today` is `_today_utc()`, used by `summary`. -/
def runCore (keys : List String) (chain : List String) (maxRetries : Nat)
    (today : String) (qs : QS) (work : Nat → Outcome) (clientOk : Nat → Bool) :
    RunOut :=
  if (availablePairs keys.length chain qs).isEmpty then
    ⟨.allExhausted today (summaryAvail qs keys.length chain)
        (keys.length * chain.length), qs, []⟩
  else
    let so := keyLoop work maxRetries chain clientOk (List.range keys.length) qs 0
    match so.res with
    | some f => ⟨f, so.qs, so.evs⟩
    | none =>
      ⟨.allExhausted today (summaryAvail so.qs keys.length chain)
          (keys.length * chain.length), so.qs, so.evs⟩

/-! ## Static configuration (source lines 39-46, 98-110) -/

def FALLBACK_MODELS : List String :=
  ["gemini-2.0-flash-lite", "gemini-2.0-flash", "gemini-2.5-flash"]

def MAX_RETRIES : Nat := 2

/-- `models or FALLBACK_MODELS` (source line 119): a `None` or empty
override falls back to the default chain. -/
def chainOf : Option (List String) → List String
  | none => FALLBACK_MODELS
  | some l => if l.isEmpty then FALLBACK_MODELS else l

/-- Python `str.strip()`: drop whitespace from both ends. -/
def pyStrip (s : String) : String :=
  String.mk (((s.data.dropWhile Char.isWhitespace).reverse.dropWhile
    Char.isWhitespace).reverse)

/-- One step of `_load_api_keys`'s accumulation (source lines 104-107):
keep a slot value only if it is set, non-blank after stripping, and its
stripped form was not seen before; append the stripped form. -/
def addKey (acc : List String) (c : Option String) : List String :=
  match c with
  | none => acc
  | some k =>
    if k ≠ "" && pyStrip k ≠ "" && !(acc.contains (pyStrip k)) then
      acc ++ [pyStrip k]
    else acc

/-- `_load_api_keys` (source lines 98-110) over the ordered slot values
(`GEMINI_API_KEY`, `GEMINI_API_KEY_2`, ...): `none` models the raised
`ValueError` for an empty pool. -/
def load_api_keys (candidates : List (Option String)) : Option (List String) :=
  let keys := candidates.foldl addKey []
  if keys.isEmpty then none else some keys

/-- `gemini_with_retry` including key loading and the per-call model
chain override. -/
def gemini_with_retry (candidates : List (Option String))
    (models : Option (List String)) (maxRetries : Nat) (today : String)
    (qs : QS) (work : Nat → Outcome) (clientOk : Nat → Bool) : Option RunOut :=
  (load_api_keys candidates).map (fun keys =>
    runCore keys (chainOf models) maxRetries today qs work clientOk)

/-! ## Persisted state loading (`_QuotaState._load`, source lines 57-70) -/

/-- JSON values as `json.load` produces them (numbers restricted to the
integers occurring in this state file). -/
inductive JVal
  | jnull
  | jbool (b : Bool)
  | jnum (n : Int)
  | jstr (s : String)
  | jarr (xs : List JVal)
  | jobj (fields : List (String × JVal))

/-- Python `dict.get` over the parsed object (later duplicate JSON keys
overwrite earlier ones, hence last binding wins). -/
def jGet : List (String × JVal) → String → Option JVal
  | [], _ => none
  | (k, v) :: rest, key =>
    match jGet rest key with
    | some r => some r
    | none => if k = key then some v else none

/-- Python `value == someString` for an optional JSON value: only a
string with the same contents compares equal. -/
def jIsStrEq : Option JVal → String → Bool
  | some (.jstr s), t => s = t
  | _, _ => false

/-- `_QuotaState._fresh` (source lines 69-70). -/
def freshState (today : String) : JVal :=
  .jobj [("date", .jstr today), ("exhausted", .jarr [])]

/-- What the backing file holds: absent, not decodable as JSON, or a
decoded JSON document (of any shape). -/
inductive FileContent
  | missing
  | undecodable
  | decoded (j : JVal)

/-- Result of `_load`: a state value, or an exception that the
`except (FileNotFoundError, json.JSONDecodeError)` clause does not
catch. -/
inductive LoadResult
  | ok (state : JVal)
  | uncaught (msg : String)

/-- `_QuotaState._load` (source lines 57-67): a missing or undecodable
file yields a fresh state; a decoded object whose `date` differs from
today is discarded for a fresh state; a decoded object with today's
date is returned as-is; a decoded non-object raises `AttributeError`
at `state.get("date")`, which the except clause does not catch. -/
def quota_load (today : String) (file : FileContent) : LoadResult :=
  match file with
  | .missing => .ok (freshState today)
  | .undecodable => .ok (freshState today)
  | .decoded j =>
    match j with
    | .jobj fields =>
      if jIsStrEq (jGet fields "date") today then .ok (.jobj fields)
      else .ok (freshState today)
    | _ => .uncaught "AttributeError"

/-- Serialization of one exhausted entry, `[key_index, model]`. -/
def entryToJson (e : Nat × String) : JVal := .jarr [.jnum (e.1 : Int), .jstr e.2]

/-- `_QuotaState._save`'s document for a structured state. -/
def qsToJson (qs : QS) : JVal :=
  .jobj [("date", .jstr qs.date), ("exhausted", .jarr (qs.exhausted.map entryToJson))]

/-! ## Trace-shape predicates used by the stated properties -/

/-- `callsOk ex evs`: replaying `evs` starting from exhausted-list `ex`,
every `call` event targets a pair not in the current exhausted list
(which grows by exactly the `mark` events). -/
def callsOk : List (Nat × String) → List REv → Prop
  | _, [] => True
  | ex, REv.call ki m :: rest => (ki, m) ∉ ex ∧ callsOk ex rest
  | ex, REv.mark ki m :: rest => callsOk (ex ++ [(ki, m)]) rest
  | ex, REv.sleep _ :: rest => callsOk ex rest

/-- `PairTrace ki ms cs`: the call-pair sequence `cs` consists of blocks
of consecutive attempts, one block per model, following the order of the
model list `ms` (models may be skipped; a block has at least one call).
This is the "models in chain order within one credential" shape of the
priority ordering. -/
inductive PairTrace (ki : Nat) : List String → List (Nat × String) → Prop
  | nil (ms : List String) : PairTrace ki ms []
  | skip (m : String) (ms : List String) (cs : List (Nat × String)) :
      PairTrace ki ms cs → PairTrace ki (m :: ms) cs
  | block (m : String) (ms : List String) (k : Nat) (cs : List (Nat × String)) :
      PairTrace ki ms cs → PairTrace ki (m :: ms) (List.replicate (k + 1) (ki, m) ++ cs)

/-- `KeyTrace chain ks cs`: the call-pair sequence `cs` decomposes into
per-credential segments following the order of the credential index list
`ks`, each segment itself a `PairTrace` over the model chain.  This is
the full fixed priority order of §4.5. -/
inductive KeyTrace (chain : List String) : List Nat → List (Nat × String) → Prop
  | nil (ks : List Nat) : KeyTrace chain ks []
  | skip (ki : Nat) (ks : List Nat) (cs : List (Nat × String)) :
      KeyTrace chain ks cs → KeyTrace chain (ki :: ks) cs
  | key (ki : Nat) (ks : List Nat) (cs1 cs2 : List (Nat × String)) :
      PairTrace ki chain cs1 → KeyTrace chain ks cs2 →
      KeyTrace chain (ki :: ks) (cs1 ++ cs2)

/-- An outcome that the source's classifier sends to the per-minute
rate-limit path: a failure that is not not-found, matches a quota
signature, and is not daily-exhaustion. -/
def isRateErr : Outcome → Bool
  | .success _ => false
  | .failure e => !(is404 e) && is_quota e && !(is_daily e)

/-- An error string the source re-raises unchanged: neither the
not-found class nor any quota/rate-limit signature (source lines
177-184). -/
def isFatalErrStr (e : String) : Bool := !(is404 e) && !(is_quota e)

/-- `NonFatalCalls work n evs`: no `call` event of `evs` (whose oracle
index starts at `n` and advances by one per call) has an outcome whose
error is fatal-classified. -/
def NonFatalCalls (work : Nat → Outcome) : Nat → List REv → Prop
  | _, [] => True
  | n, REv.call _ _ :: rest =>
      (∀ err, work n = Outcome.failure err → isFatalErrStr err = false)
        ∧ NonFatalCalls work (n + 1) rest
  | n, REv.mark _ _ :: rest => NonFatalCalls work n rest
  | n, REv.sleep _ :: rest => NonFatalCalls work n rest

/-! ## Process-level ordering of quota I/O vs. configuration errors -/

/-- Process-level events relevant to claim C8: the disk load performed
by `_QuotaState._load`, the `ValueError` raised by `_load_api_keys`,
and the first read of the quota state inside `gemini_with_retry` (the
availability precheck). -/
inductive PEv
  | quotaDiskLoad
  | configError
  | quotaAvailCheck
deriving DecidableEq

/-- Importing the module runs `_quota_state = _QuotaState()` (source
line 94), whose constructor calls `_load` and performs the disk read. -/
def importTrace : List PEv := [PEv.quotaDiskLoad]

/-- Events of one `gemini_with_retry` call, up to the first touch of
the quota state: `_load_api_keys()` runs first (line 120) and raises on
an empty pool; otherwise the availability precheck (lines 123-127) is
the first quota-state access. -/
def executeTrace (candidates : List (Option String)) : List PEv :=
  match load_api_keys candidates with
  | none => [PEv.configError]
  | some _ => [PEv.quotaAvailCheck]

/-- A fresh process importing the module and then calling
`gemini_with_retry`. -/
def processTrace (candidates : List (Option String)) : List PEv :=
  importTrace ++ executeTrace candidates

/-! ## Basic event-list lemmas -/

theorem callPairs_append (e1 e2 : List REv) :
    callPairs (e1 ++ e2) = callPairs e1 ++ callPairs e2 := by
  simp [callPairs]

theorem marksOf_append (e1 e2 : List REv) :
    marksOf (e1 ++ e2) = marksOf e1 ++ marksOf e2 := by
  simp [marksOf]

theorem sleepsOf_append (e1 e2 : List REv) :
    sleepsOf (e1 ++ e2) = sleepsOf e1 ++ sleepsOf e2 := by
  simp [sleepsOf]

theorem countCalls_append (e1 e2 : List REv) :
    countCalls (e1 ++ e2) = countCalls e1 + countCalls e2 := by
  simp [countCalls, callPairs_append]

theorem markEvs_exh (qs : QS) (ki : Nat) (m : String) :
    (markEvs qs ki m).1.exhausted = qs.exhausted ++ marksOf (markEvs qs ki m).2 := by
  by_cases h : (ki, m) ∈ qs.exhausted <;> simp [markEvs, mark_exhausted, h, marksOf]

theorem markEvs_date (qs : QS) (ki : Nat) (m : String) :
    (markEvs qs ki m).1.date = qs.date := by
  by_cases h : (ki, m) ∈ qs.exhausted <;> simp [markEvs, mark_exhausted, h]

theorem markEvs_calls (qs : QS) (ki : Nat) (m : String) :
    callPairs (markEvs qs ki m).2 = [] := by
  by_cases h : (ki, m) ∈ qs.exhausted <;> simp [markEvs, mark_exhausted, h, callPairs]

theorem markEvs_sleeps (qs : QS) (ki : Nat) (m : String) :
    sleepsOf (markEvs qs ki m).2 = [] := by
  by_cases h : (ki, m) ∈ qs.exhausted <;> simp [markEvs, mark_exhausted, h, sleepsOf]

theorem markEvs_mem (qs : QS) (ki : Nat) (m : String) :
    (ki, m) ∈ (markEvs qs ki m).1.exhausted := by
  by_cases h : (ki, m) ∈ qs.exhausted <;> simp [markEvs, mark_exhausted, h]

theorem callPairs_cons_call (ki : Nat) (m : String) (evs : List REv) :
    callPairs (REv.call ki m :: evs) = (ki, m) :: callPairs evs := by
  simp [callPairs]

theorem callPairs_cons_mark (ki : Nat) (m : String) (evs : List REv) :
    callPairs (REv.mark ki m :: evs) = callPairs evs := by
  simp [callPairs]

theorem callPairs_cons_sleep (w : Rat) (evs : List REv) :
    callPairs (REv.sleep w :: evs) = callPairs evs := by
  simp [callPairs]

theorem marksOf_cons_call (ki : Nat) (m : String) (evs : List REv) :
    marksOf (REv.call ki m :: evs) = marksOf evs := by
  simp [marksOf]

theorem marksOf_cons_mark (ki : Nat) (m : String) (evs : List REv) :
    marksOf (REv.mark ki m :: evs) = (ki, m) :: marksOf evs := by
  simp [marksOf]

theorem marksOf_cons_sleep (w : Rat) (evs : List REv) :
    marksOf (REv.sleep w :: evs) = marksOf evs := by
  simp [marksOf]

theorem sleepsOf_cons_call (ki : Nat) (m : String) (evs : List REv) :
    sleepsOf (REv.call ki m :: evs) = sleepsOf evs := by
  simp [sleepsOf]

theorem sleepsOf_cons_mark (ki : Nat) (m : String) (evs : List REv) :
    sleepsOf (REv.mark ki m :: evs) = sleepsOf evs := by
  simp [sleepsOf]

theorem sleepsOf_cons_sleep (w : Rat) (evs : List REv) :
    sleepsOf (REv.sleep w :: evs) = w :: sleepsOf evs := by
  simp [sleepsOf]

theorem countCalls_nil : countCalls [] = 0 := by simp [countCalls, callPairs]

theorem callPairs_nil : callPairs [] = [] := by simp [callPairs]

theorem marksOf_nil : marksOf [] = [] := by simp [marksOf]

theorem sleepsOf_nil : sleepsOf [] = [] := by simp [sleepsOf]

theorem countCalls_cons_call (ki : Nat) (m : String) (evs : List REv) :
    countCalls (REv.call ki m :: evs) = countCalls evs + 1 := by
  simp [countCalls, callPairs_cons_call]

theorem countCalls_cons_mark (ki : Nat) (m : String) (evs : List REv) :
    countCalls (REv.mark ki m :: evs) = countCalls evs := by
  simp [countCalls, callPairs_cons_mark]

theorem countCalls_cons_sleep (w : Rat) (evs : List REv) :
    countCalls (REv.sleep w :: evs) = countCalls evs := by
  simp [countCalls, callPairs_cons_sleep]

theorem markEvs_countCalls (qs : QS) (ki : Nat) (m : String) :
    countCalls (markEvs qs ki m).2 = 0 := by
  simp [countCalls, markEvs_calls]

/-! ## State-accumulation invariants of the three loops

For each loop: the final exhausted list is the initial one extended by
exactly the pairs of the emitted `mark` events, the date never changes,
and the final call counter advances by exactly the number of `call`
events emitted. -/

theorem attemptLoop_state (work : Nat → Outcome) (mr ki : Nat) (m : String) :
    ∀ fuel attempt qs n,
      (attemptLoop work mr ki m attempt fuel qs n).qs.exhausted
          = qs.exhausted ++ marksOf (attemptLoop work mr ki m attempt fuel qs n).evs
        ∧ (attemptLoop work mr ki m attempt fuel qs n).qs.date = qs.date
        ∧ (attemptLoop work mr ki m attempt fuel qs n).n
          = n + countCalls (attemptLoop work mr ki m attempt fuel qs n).evs := by
  intro fuel
  induction fuel with
  | zero =>
    intro attempt qs n
    simp [attemptLoop, marksOf_nil, countCalls_nil]
  | succ f ih =>
    intro attempt qs n
    cases hw : work n with
    | success p =>
      simp [attemptLoop, hw, marksOf_cons_call, marksOf_nil,
        countCalls_cons_call, countCalls_nil]
    | failure err =>
      cases hfa : failAct err attempt mr with
      | dead =>
        simp only [attemptLoop, hw, hfa]
        exact ⟨by rw [marksOf_cons_call, markEvs_exh], markEvs_date qs ki m,
          by rw [countCalls_cons_call, markEvs_countCalls]⟩
      | fatalRaise =>
        simp [attemptLoop, hw, hfa, marksOf_cons_call, marksOf_nil,
          countCalls_cons_call, countCalls_nil]
      | daily =>
        simp only [attemptLoop, hw, hfa]
        exact ⟨by rw [marksOf_cons_call, markEvs_exh], markEvs_date qs ki m,
          by rw [countCalls_cons_call, markEvs_countCalls]⟩
      | rateRetry w =>
        have h := ih (attempt + 1) qs (n + 1)
        simp only [attemptLoop, hw, hfa]
        refine ⟨?_, h.2.1, ?_⟩
        · rw [marksOf_cons_call, marksOf_cons_sleep]
          exact h.1
        · rw [countCalls_cons_call, countCalls_cons_sleep]
          omega
      | rateGiveUp =>
        simp only [attemptLoop, hw, hfa]
        exact ⟨by rw [marksOf_cons_call, markEvs_exh], markEvs_date qs ki m,
          by rw [countCalls_cons_call, markEvs_countCalls]⟩

theorem modelLoop_state (work : Nat → Outcome) (mr ki : Nat) :
    ∀ ms qs n,
      (modelLoop work mr ki ms qs n).qs.exhausted
          = qs.exhausted ++ marksOf (modelLoop work mr ki ms qs n).evs
        ∧ (modelLoop work mr ki ms qs n).qs.date = qs.date
        ∧ (modelLoop work mr ki ms qs n).n
          = n + countCalls (modelLoop work mr ki ms qs n).evs := by
  intro ms
  induction ms with
  | nil =>
    intro qs n
    simp [modelLoop, marksOf_nil, countCalls_nil]
  | cons m ms ih =>
    intro qs n
    by_cases hex : is_exhausted qs ki m
    · simpa [modelLoop, hex] using ih qs n
    · have hp := attemptLoop_state work mr ki m mr 1 qs n
      cases hst : (attemptLoop work mr ki m 1 mr qs n).step with
      | finished f =>
        simp only [modelLoop, hex, Bool.false_eq_true, if_false, hst]
        exact hp
      | advance =>
        have hm := ih (attemptLoop work mr ki m 1 mr qs n).qs
          (attemptLoop work mr ki m 1 mr qs n).n
        simp only [modelLoop, hex, Bool.false_eq_true, if_false, hst]
        refine ⟨?_, ?_, ?_⟩
        · rw [marksOf_append, hm.1, hp.1, List.append_assoc]
        · rw [hm.2.1, hp.2.1]
        · rw [countCalls_append, hm.2.2, hp.2.2]
          omega

theorem keyLoop_state (work : Nat → Outcome) (mr : Nat) (chain : List String)
    (clientOk : Nat → Bool) :
    ∀ ks qs n,
      (keyLoop work mr chain clientOk ks qs n).qs.exhausted
          = qs.exhausted ++ marksOf (keyLoop work mr chain clientOk ks qs n).evs
        ∧ (keyLoop work mr chain clientOk ks qs n).qs.date = qs.date
        ∧ (keyLoop work mr chain clientOk ks qs n).n
          = n + countCalls (keyLoop work mr chain clientOk ks qs n).evs := by
  intro ks
  induction ks with
  | nil =>
    intro qs n
    simp [keyLoop, marksOf_nil, countCalls_nil]
  | cons ki ks ih =>
    intro qs n
    by_cases hall : chain.all (fun m => is_exhausted qs ki m)
    · simpa [keyLoop, hall] using ih qs n
    · by_cases hc : clientOk ki
      · have hp := modelLoop_state work mr ki chain qs n
        cases hst : (modelLoop work mr ki chain qs n).res with
        | some f =>
          simp only [keyLoop, hall, Bool.false_eq_true, if_false, hc,
            Bool.not_true, hst]
          exact hp
        | none =>
          have hk := ih (modelLoop work mr ki chain qs n).qs
            (modelLoop work mr ki chain qs n).n
          simp only [keyLoop, hall, Bool.false_eq_true, if_false, hc,
            Bool.not_true, hst]
          refine ⟨?_, ?_, ?_⟩
          · rw [marksOf_append, hk.1, hp.1, List.append_assoc]
          · rw [hk.2.1, hp.2.1]
          · rw [countCalls_append, hk.2.2, hp.2.2]
            omega
      · simp only [Bool.not_eq_true] at hc
        simpa [keyLoop, hall, hc] using ih qs n

theorem runCore_state (keys chain : List String) (mr : Nat) (today : String)
    (qs : QS) (work : Nat → Outcome) (clientOk : Nat → Bool) :
    (runCore keys chain mr today qs work clientOk).qs.exhausted
        = qs.exhausted ++ marksOf (runCore keys chain mr today qs work clientOk).evs
      ∧ (runCore keys chain mr today qs work clientOk).qs.date = qs.date := by
  by_cases hav : (availablePairs keys.length chain qs).isEmpty
  · simp [runCore, hav, marksOf_nil]
  · have hk := keyLoop_state work mr chain clientOk (List.range keys.length) qs 0
    cases hst : (keyLoop work mr chain clientOk (List.range keys.length) qs 0).res with
    | some f =>
      simp only [runCore, hav, Bool.false_eq_true, if_false, hst]
      exact ⟨hk.1, hk.2.1⟩
    | none =>
      simp only [runCore, hav, Bool.false_eq_true, if_false, hst]
      exact ⟨hk.1, hk.2.1⟩

/-! ## No call ever targets a pair that is exhausted at call time -/

theorem callsOk_append {ex : List (Nat × String)} :
    ∀ {e1 e2 : List REv}, callsOk ex e1 → callsOk (ex ++ marksOf e1) e2 →
      callsOk ex (e1 ++ e2) := by
  intro e1
  induction e1 generalizing ex with
  | nil =>
    intro e2 _ h2
    simpa [marksOf_nil] using h2
  | cons e rest ih =>
    intro e2 h1 h2
    cases e with
    | call ki m =>
      rw [marksOf_cons_call] at h2
      exact ⟨h1.1, ih h1.2 h2⟩
    | mark ki m =>
      rw [marksOf_cons_mark] at h2
      refine ih h1 ?_
      simpa [List.append_assoc] using h2
    | sleep w =>
      rw [marksOf_cons_sleep] at h2
      exact ih h1 h2

theorem callsOk_split {ex : List (Nat × String)} :
    ∀ {e1 e2 : List REv}, callsOk ex (e1 ++ e2) → callsOk (ex ++ marksOf e1) e2 := by
  intro e1
  induction e1 generalizing ex with
  | nil =>
    intro e2 h
    simpa [marksOf_nil] using h
  | cons e rest ih =>
    intro e2 h
    cases e with
    | call ki m =>
      rw [marksOf_cons_call]
      exact ih h.2
    | mark ki m =>
      rw [marksOf_cons_mark]
      have := @ih (ex ++ [(ki, m)]) e2 h
      simpa [List.append_assoc] using this
    | sleep w =>
      rw [marksOf_cons_sleep]
      exact ih h

theorem callsOk_no_call {P : Nat × String} {ex : List (Nat × String)} :
    ∀ {evs : List REv}, callsOk ex evs → P ∈ ex → REv.call P.1 P.2 ∉ evs := by
  intro evs
  induction evs generalizing ex with
  | nil => intro _ _ h; simp at h
  | cons e rest ih =>
    intro hok hmem hin
    cases e with
    | call ki m =>
      rcases List.mem_cons.mp hin with heq | hin2
      · injection heq with h1 h2
        subst h1
        subst h2
        exact hok.1 (by rw [Prod.mk.eta]; exact hmem)
      · exact ih hok.2 hmem hin2
    | mark ki m =>
      rcases List.mem_cons.mp hin with heq | hin2
      · exact absurd heq (by simp)
      · exact ih hok (List.mem_append_left _ hmem) hin2
    | sleep w =>
      rcases List.mem_cons.mp hin with heq | hin2
      · exact absurd heq (by simp)
      · exact ih hok hmem hin2

theorem mem_callPairs {P : Nat × String} :
    ∀ {evs : List REv}, P ∈ callPairs evs → REv.call P.1 P.2 ∈ evs := by
  intro evs
  induction evs with
  | nil => intro hin; simp [callPairs_nil] at hin
  | cons e rest ih =>
    intro hin
    cases e with
    | call ki m =>
      rw [callPairs_cons_call] at hin
      rcases List.mem_cons.mp hin with heq | hin2
      · subst heq
        simp
      · simp [ih hin2]
    | mark ki m =>
      rw [callPairs_cons_mark] at hin
      simp [ih hin]
    | sleep w =>
      rw [callPairs_cons_sleep] at hin
      simp [ih hin]

theorem callsOk_no_pair {P : Nat × String} {ex : List (Nat × String)}
    {evs : List REv} (hok : callsOk ex evs) (hmem : P ∈ ex) :
    P ∉ callPairs evs := by
  intro hin
  exact callsOk_no_call hok hmem (mem_callPairs hin)

theorem attemptLoop_callsOk (work : Nat → Outcome) (mr ki : Nat) (m : String) :
    ∀ fuel attempt qs n, (ki, m) ∉ qs.exhausted →
      callsOk qs.exhausted (attemptLoop work mr ki m attempt fuel qs n).evs := by
  intro fuel
  induction fuel with
  | zero =>
    intro attempt qs n _
    simp [attemptLoop, callsOk]
  | succ f ih =>
    intro attempt qs n hnm
    cases hw : work n with
    | success p => simp [attemptLoop, hw, callsOk, hnm]
    | failure err =>
      cases hfa : failAct err attempt mr with
      | dead =>
        by_cases h : (ki, m) ∈ qs.exhausted
        · exact absurd h hnm
        · simp [attemptLoop, hw, hfa, markEvs, mark_exhausted, h, callsOk, hnm]
      | fatalRaise => simp [attemptLoop, hw, hfa, callsOk, hnm]
      | daily =>
        by_cases h : (ki, m) ∈ qs.exhausted
        · exact absurd h hnm
        · simp [attemptLoop, hw, hfa, markEvs, mark_exhausted, h, callsOk, hnm]
      | rateRetry w =>
        have := ih (attempt + 1) qs (n + 1) hnm
        simp only [attemptLoop, hw, hfa]
        exact ⟨hnm, this⟩
      | rateGiveUp =>
        by_cases h : (ki, m) ∈ qs.exhausted
        · exact absurd h hnm
        · simp [attemptLoop, hw, hfa, markEvs, mark_exhausted, h, callsOk, hnm]

theorem modelLoop_callsOk (work : Nat → Outcome) (mr ki : Nat) :
    ∀ ms qs n, callsOk qs.exhausted (modelLoop work mr ki ms qs n).evs := by
  intro ms
  induction ms with
  | nil => intro qs n; simp [modelLoop, callsOk]
  | cons m ms ih =>
    intro qs n
    by_cases hex : is_exhausted qs ki m
    · simpa [modelLoop, hex] using ih qs n
    · have hnm : (ki, m) ∉ qs.exhausted := by
        simpa [is_exhausted] using hex
      have hp := attemptLoop_callsOk work mr ki m mr 1 qs n hnm
      cases hst : (attemptLoop work mr ki m 1 mr qs n).step with
      | finished f =>
        simpa [modelLoop, hex, hst] using hp
      | advance =>
        have hrest := ih (attemptLoop work mr ki m 1 mr qs n).qs
          (attemptLoop work mr ki m 1 mr qs n).n
        have hacc := (attemptLoop_state work mr ki m mr 1 qs n).1
        rw [hacc] at hrest
        simp only [modelLoop, hex, Bool.false_eq_true, if_false, hst]
        exact callsOk_append hp hrest

theorem keyLoop_callsOk (work : Nat → Outcome) (mr : Nat) (chain : List String)
    (clientOk : Nat → Bool) :
    ∀ ks qs n, callsOk qs.exhausted (keyLoop work mr chain clientOk ks qs n).evs := by
  intro ks
  induction ks with
  | nil => intro qs n; simp [keyLoop, callsOk]
  | cons ki ks ih =>
    intro qs n
    by_cases hall : chain.all (fun m => is_exhausted qs ki m)
    · simpa [keyLoop, hall] using ih qs n
    · by_cases hc : clientOk ki
      · have hp := modelLoop_callsOk work mr ki chain qs n
        cases hst : (modelLoop work mr ki chain qs n).res with
        | some f =>
          simpa [keyLoop, hall, hc, hst] using hp
        | none =>
          have hrest := ih (modelLoop work mr ki chain qs n).qs
            (modelLoop work mr ki chain qs n).n
          have hacc := (modelLoop_state work mr ki chain qs n).1
          rw [hacc] at hrest
          simp only [keyLoop, hall, Bool.false_eq_true, if_false, hc,
            Bool.not_true, hst]
          exact callsOk_append hp hrest
      · simp only [Bool.not_eq_true] at hc
        simpa [keyLoop, hall, hc] using ih qs n

theorem runCore_callsOk (keys chain : List String) (mr : Nat) (today : String)
    (qs : QS) (work : Nat → Outcome) (clientOk : Nat → Bool) :
    callsOk qs.exhausted (runCore keys chain mr today qs work clientOk).evs := by
  by_cases hav : (availablePairs keys.length chain qs).isEmpty
  · simp [runCore, hav, callsOk]
  · have hk := keyLoop_callsOk work mr chain clientOk (List.range keys.length) qs 0
    cases hst : (keyLoop work mr chain clientOk (List.range keys.length) qs 0).res with
    | some f => simpa [runCore, hav, hst] using hk
    | none => simpa [runCore, hav, hst] using hk

/-! ## Priority-order shape of the attempted pairs (claim C1) -/

theorem attemptLoop_calls_const (work : Nat → Outcome) (mr ki : Nat) (m : String) :
    ∀ fuel attempt qs n,
      callPairs (attemptLoop work mr ki m attempt fuel qs n).evs
        = List.replicate (countCalls (attemptLoop work mr ki m attempt fuel qs n).evs)
            (ki, m) := by
  intro fuel
  induction fuel with
  | zero =>
    intro attempt qs n
    simp [attemptLoop, callPairs_nil, countCalls_nil]
  | succ f ih =>
    intro attempt qs n
    cases hw : work n with
    | success p =>
      simp [attemptLoop, hw, callPairs_cons_call, callPairs_nil,
        countCalls_cons_call, countCalls_nil, List.replicate]
    | failure err =>
      cases hfa : failAct err attempt mr with
      | dead =>
        simp only [attemptLoop, hw, hfa]
        rw [callPairs_cons_call, countCalls_cons_call, markEvs_calls,
          markEvs_countCalls]
        simp [List.replicate]
      | fatalRaise =>
        simp [attemptLoop, hw, hfa, callPairs_cons_call, callPairs_nil,
          countCalls_cons_call, countCalls_nil, List.replicate]
      | daily =>
        simp only [attemptLoop, hw, hfa]
        rw [callPairs_cons_call, countCalls_cons_call, markEvs_calls,
          markEvs_countCalls]
        simp [List.replicate]
      | rateRetry w =>
        simp only [attemptLoop, hw, hfa]
        rw [callPairs_cons_call, callPairs_cons_sleep,
          countCalls_cons_call, countCalls_cons_sleep]
        rw [ih (attempt + 1) qs (n + 1)]
        simp [List.replicate]
      | rateGiveUp =>
        simp only [attemptLoop, hw, hfa]
        rw [callPairs_cons_call, countCalls_cons_call, markEvs_calls,
          markEvs_countCalls]
        simp [List.replicate]

theorem modelLoop_trace (work : Nat → Outcome) (mr ki : Nat) :
    ∀ ms qs n, PairTrace ki ms (callPairs (modelLoop work mr ki ms qs n).evs) := by
  intro ms
  induction ms with
  | nil =>
    intro qs n
    simp only [modelLoop, callPairs_nil]
    exact PairTrace.nil []
  | cons m ms ih =>
    intro qs n
    by_cases hex : is_exhausted qs ki m
    · simp only [modelLoop, hex, if_true]
      exact PairTrace.skip m ms _ (ih qs n)
    · have hconst := attemptLoop_calls_const work mr ki m mr 1 qs n
      cases hst : (attemptLoop work mr ki m 1 mr qs n).step with
      | finished f =>
        simp only [modelLoop, hex, Bool.false_eq_true, if_false, hst]
        rw [hconst]
        cases hk : countCalls (attemptLoop work mr ki m 1 mr qs n).evs with
        | zero =>
          have h0 : List.replicate 0 ((ki, m) : Nat × String) = [] := rfl
          exact h0 ▸ PairTrace.nil (m :: ms)
        | succ k =>
          have := @PairTrace.block ki m ms k [] (@PairTrace.nil ki ms)
          simpa using this
      | advance =>
        have hrest := ih (attemptLoop work mr ki m 1 mr qs n).qs
          (attemptLoop work mr ki m 1 mr qs n).n
        simp only [modelLoop, hex, Bool.false_eq_true, if_false, hst]
        rw [callPairs_append, hconst]
        cases hk : countCalls (attemptLoop work mr ki m 1 mr qs n).evs with
        | zero =>
          simpa using PairTrace.skip m ms _ hrest
        | succ k =>
          exact PairTrace.block m ms k _ hrest

theorem keyLoop_trace (work : Nat → Outcome) (mr : Nat) (chain : List String)
    (clientOk : Nat → Bool) :
    ∀ ks qs n, KeyTrace chain ks (callPairs (keyLoop work mr chain clientOk ks qs n).evs) := by
  intro ks
  induction ks with
  | nil =>
    intro qs n
    simp only [keyLoop, callPairs_nil]
    exact KeyTrace.nil []
  | cons ki ks ih =>
    intro qs n
    by_cases hall : chain.all (fun m => is_exhausted qs ki m)
    · simp only [keyLoop, hall, if_true]
      exact KeyTrace.skip ki ks _ (ih qs n)
    · by_cases hc : clientOk ki
      · have hm := modelLoop_trace work mr ki chain qs n
        cases hst : (modelLoop work mr ki chain qs n).res with
        | some f =>
          simp only [keyLoop, hall, Bool.false_eq_true, if_false, hc,
            Bool.not_true, hst]
          have := KeyTrace.key ki ks _ [] hm (KeyTrace.nil ks)
          simpa using this
        | none =>
          have hrest := ih (modelLoop work mr ki chain qs n).qs
            (modelLoop work mr ki chain qs n).n
          simp only [keyLoop, hall, Bool.false_eq_true, if_false, hc,
            Bool.not_true, hst]
          rw [callPairs_append]
          exact KeyTrace.key ki ks _ _ hm hrest
      · simp only [Bool.not_eq_true] at hc
        simp only [keyLoop, hall, Bool.false_eq_true, if_false, hc,
          Bool.not_false, if_true]
        exact KeyTrace.skip ki ks _ (ih qs n)

/-! ## Fatal errors stop everything (claim C3) -/

theorem NonFatalCalls_cons_call {work : Nat → Outcome} {n : Nat} {ki : Nat}
    {m : String} {rest : List REv} :
    NonFatalCalls work n (REv.call ki m :: rest)
      ↔ (∀ err, work n = Outcome.failure err → isFatalErrStr err = false)
          ∧ NonFatalCalls work (n + 1) rest := by
  simp [NonFatalCalls]

theorem NonFatalCalls_cons_mark {work : Nat → Outcome} {n : Nat} {ki : Nat}
    {m : String} {rest : List REv} :
    NonFatalCalls work n (REv.mark ki m :: rest) ↔ NonFatalCalls work n rest := by
  simp [NonFatalCalls]

theorem NonFatalCalls_cons_sleep {work : Nat → Outcome} {n : Nat} {w : Rat}
    {rest : List REv} :
    NonFatalCalls work n (REv.sleep w :: rest) ↔ NonFatalCalls work n rest := by
  simp [NonFatalCalls]

theorem NonFatalCalls_append {work : Nat → Outcome} :
    ∀ {e1 : List REv} {n : Nat} {e2 : List REv}, NonFatalCalls work n e1 →
      NonFatalCalls work (n + countCalls e1) e2 → NonFatalCalls work n (e1 ++ e2) := by
  intro e1
  induction e1 with
  | nil =>
    intro n e2 _ h2
    simpa [countCalls_nil] using h2
  | cons e rest ih =>
    intro n e2 h1 h2
    cases e with
    | call ki m =>
      rw [countCalls_cons_call] at h2
      rw [List.cons_append, NonFatalCalls_cons_call]
      refine ⟨(NonFatalCalls_cons_call.mp h1).1, ih (NonFatalCalls_cons_call.mp h1).2 ?_⟩
      have : n + (countCalls rest + 1) = n + 1 + countCalls rest := by omega
      rwa [this] at h2
    | mark ki m =>
      rw [countCalls_cons_mark] at h2
      rw [List.cons_append, NonFatalCalls_cons_mark]
      exact ih (NonFatalCalls_cons_mark.mp h1) h2
    | sleep w =>
      rw [countCalls_cons_sleep] at h2
      rw [List.cons_append, NonFatalCalls_cons_sleep]
      exact ih (NonFatalCalls_cons_sleep.mp h1) h2

/-- A `NonFatalCalls` event list cannot contain a call whose outcome is
a fatal-classified failure. -/
theorem NonFatalCalls_at {work : Nat → Outcome} :
    ∀ {pre : List REv} {n : Nat} {ki : Nat} {m : String} {suf : List REv}
      {err : String},
      NonFatalCalls work n (pre ++ REv.call ki m :: suf) →
      work (n + countCalls pre) = Outcome.failure err →
      isFatalErrStr err = false := by
  intro pre
  induction pre with
  | nil =>
    intro n ki m suf err h hw
    rw [countCalls_nil] at hw
    exact (NonFatalCalls_cons_call.mp (by simpa using h)).1 err (by simpa using hw)
  | cons e rest ih =>
    intro n ki m suf err h hw
    cases e with
    | call ki2 m2 =>
      rw [List.cons_append] at h
      rw [countCalls_cons_call] at hw
      refine ih (NonFatalCalls_cons_call.mp h).2 ?_
      have : n + (countCalls rest + 1) = n + 1 + countCalls rest := by omega
      rwa [this] at hw
    | mark ki2 m2 =>
      rw [List.cons_append] at h
      rw [countCalls_cons_mark] at hw
      exact ih (NonFatalCalls_cons_mark.mp h) hw
    | sleep w =>
      rw [List.cons_append] at h
      rw [countCalls_cons_sleep] at hw
      exact ih (NonFatalCalls_cons_sleep.mp h) hw

theorem failAct_eq_dead {err : String} {a mr : Nat} :
    failAct err a mr = FailAct.dead ↔ is404 err = true := by
  unfold failAct
  split_ifs <;> simp_all

theorem failAct_eq_fatalRaise {err : String} {a mr : Nat} :
    failAct err a mr = FailAct.fatalRaise ↔ (is404 err = false ∧ is_quota err = false) := by
  unfold failAct
  split_ifs <;> simp_all

theorem failAct_eq_daily {err : String} {a mr : Nat} :
    failAct err a mr = FailAct.daily
      ↔ (is404 err = false ∧ is_quota err = true ∧ is_daily err = true) := by
  unfold failAct
  split_ifs <;> simp_all

theorem failAct_eq_rateRetry {err : String} {a mr : Nat} {w : Rat} :
    failAct err a mr = FailAct.rateRetry w
      ↔ (is404 err = false ∧ is_quota err = true ∧ is_daily err = false ∧ a < mr
          ∧ w = (match retryDelayOf err with
                 | some d => d + 2
                 | none => 10 * (a : Rat))) := by
  unfold failAct
  split_ifs <;> simp_all
  exact eq_comm

theorem failAct_eq_rateGiveUp {err : String} {a mr : Nat} :
    failAct err a mr = FailAct.rateGiveUp
      ↔ (is404 err = false ∧ is_quota err = true ∧ is_daily err = false ∧ ¬(a < mr)) := by
  unfold failAct
  split_ifs <;> simp_all

theorem markEvs_nonfatal (work : Nat → Outcome) (n : Nat) (qs : QS) (ki : Nat)
    (m : String) : NonFatalCalls work n (markEvs qs ki m).2 := by
  by_cases h : (ki, m) ∈ qs.exhausted <;>
    simp [markEvs, mark_exhausted, h, NonFatalCalls]

theorem attemptLoop_nonfatal (work : Nat → Outcome) (mr ki : Nat) (m : String) :
    ∀ fuel attempt qs n,
      (∀ e, (attemptLoop work mr ki m attempt fuel qs n).step
          ≠ PairStep.finished (Final.fatalErr e)) →
      NonFatalCalls work n (attemptLoop work mr ki m attempt fuel qs n).evs := by
  intro fuel
  induction fuel with
  | zero =>
    intro attempt qs n _
    simp [attemptLoop, NonFatalCalls]
  | succ f ih =>
    intro attempt qs n hnf
    cases hw : work n with
    | success p =>
      simp only [attemptLoop, hw]
      refine NonFatalCalls_cons_call.mpr ⟨?_, ?_⟩
      · intro err hw2
        rw [hw] at hw2
        cases hw2
      · simp [NonFatalCalls]
    | failure err =>
      cases hfa : failAct err attempt mr with
      | dead =>
        have h4 : is404 err = true := failAct_eq_dead.mp hfa
        simp only [attemptLoop, hw, hfa]
        refine NonFatalCalls_cons_call.mpr ⟨?_, markEvs_nonfatal work (n + 1) qs ki m⟩
        intro err2 hw2
        rw [hw] at hw2
        injection hw2 with he
        subst he
        simp [isFatalErrStr, h4]
      | fatalRaise =>
        exfalso
        apply hnf err
        simp [attemptLoop, hw, hfa]
      | daily =>
        have hq : is_quota err = true := (failAct_eq_daily.mp hfa).2.1
        simp only [attemptLoop, hw, hfa]
        refine NonFatalCalls_cons_call.mpr ⟨?_, markEvs_nonfatal work (n + 1) qs ki m⟩
        intro err2 hw2
        rw [hw] at hw2
        injection hw2 with he
        subst he
        simp [isFatalErrStr, hq]
      | rateRetry w =>
        have hq : is_quota err = true := (failAct_eq_rateRetry.mp hfa).2.1
        have hstep : (attemptLoop work mr ki m attempt (f + 1) qs n).step
            = (attemptLoop work mr ki m (attempt + 1) f qs (n + 1)).step := by
          simp [attemptLoop, hw, hfa]
        have hrec := ih (attempt + 1) qs (n + 1) (fun e => hstep ▸ hnf e)
        simp only [attemptLoop, hw, hfa]
        refine NonFatalCalls_cons_call.mpr ⟨?_, NonFatalCalls_cons_sleep.mpr hrec⟩
        intro err2 hw2
        rw [hw] at hw2
        injection hw2 with he
        subst he
        simp [isFatalErrStr, hq]
      | rateGiveUp =>
        have hq : is_quota err = true := (failAct_eq_rateGiveUp.mp hfa).2.1
        simp only [attemptLoop, hw, hfa]
        refine NonFatalCalls_cons_call.mpr ⟨?_, markEvs_nonfatal work (n + 1) qs ki m⟩
        intro err2 hw2
        rw [hw] at hw2
        injection hw2 with he
        subst he
        simp [isFatalErrStr, hq]

theorem attemptLoop_fatal (work : Nat → Outcome) (mr ki : Nat) (m : String) :
    ∀ fuel attempt qs n err,
      (attemptLoop work mr ki m attempt fuel qs n).step
          = PairStep.finished (Final.fatalErr err) →
      ∃ evs0, (attemptLoop work mr ki m attempt fuel qs n).evs
            = evs0 ++ [REv.call ki m]
        ∧ NonFatalCalls work n evs0
        ∧ work (n + countCalls evs0) = Outcome.failure err
        ∧ isFatalErrStr err = true
        ∧ (attemptLoop work mr ki m attempt fuel qs n).qs = qs := by
  intro fuel
  induction fuel with
  | zero =>
    intro attempt qs n err h
    simp [attemptLoop] at h
  | succ f ih =>
    intro attempt qs n err h
    cases hw : work n with
    | success p =>
      rw [show (attemptLoop work mr ki m attempt (f + 1) qs n)
          = ⟨.finished (.ok p), qs, n + 1, [REv.call ki m]⟩ by
        simp [attemptLoop, hw]] at h
      simp at h
    | failure err2 =>
      cases hfa : failAct err2 attempt mr with
      | dead =>
        simp only [attemptLoop, hw, hfa] at h
        simp at h
      | fatalRaise =>
        have hEq : attemptLoop work mr ki m attempt (f + 1) qs n
            = ⟨.finished (.fatalErr err2), qs, n + 1, [REv.call ki m]⟩ := by
          simp [attemptLoop, hw, hfa]
        rw [hEq] at h ⊢
        simp only [PairStep.finished.injEq, Final.fatalErr.injEq] at h
        subst h
        refine ⟨[], rfl, ?_, ?_, ?_, rfl⟩
        · simp [NonFatalCalls]
        · simpa [countCalls_nil] using hw
        · have := failAct_eq_fatalRaise.mp hfa
          simp [isFatalErrStr, this.1, this.2]
      | daily =>
        simp only [attemptLoop, hw, hfa] at h
        simp at h
      | rateRetry w =>
        have hq : is_quota err2 = true := (failAct_eq_rateRetry.mp hfa).2.1
        simp only [attemptLoop, hw, hfa] at h ⊢
        obtain ⟨evs0, hevs, hnf, hwork, hfat, hqs⟩ := ih (attempt + 1) qs (n + 1) err h
        refine ⟨REv.call ki m :: REv.sleep w :: evs0, by simp [hevs], ?_, ?_, hfat, hqs⟩
        · refine NonFatalCalls_cons_call.mpr ⟨?_, NonFatalCalls_cons_sleep.mpr hnf⟩
          intro err3 hw2
          rw [hw] at hw2
          injection hw2 with he
          subst he
          simp [isFatalErrStr, hq]
        · rw [countCalls_cons_call, countCalls_cons_sleep]
          have : n + (countCalls evs0 + 1) = n + 1 + countCalls evs0 := by omega
          rw [this]
          exact hwork
      | rateGiveUp =>
        simp only [attemptLoop, hw, hfa] at h
        simp at h

theorem modelLoop_nonfatal (work : Nat → Outcome) (mr ki : Nat) :
    ∀ ms qs n,
      (∀ e, (modelLoop work mr ki ms qs n).res ≠ some (Final.fatalErr e)) →
      NonFatalCalls work n (modelLoop work mr ki ms qs n).evs := by
  intro ms
  induction ms with
  | nil =>
    intro qs n _
    simp [modelLoop, NonFatalCalls]
  | cons m ms ih =>
    intro qs n hnf
    by_cases hex : is_exhausted qs ki m
    · have := ih qs n (fun e => by
        have h2 := hnf e
        simpa [modelLoop, hex] using h2)
      simpa [modelLoop, hex] using this
    · cases hst : (attemptLoop work mr ki m 1 mr qs n).step with
      | finished f =>
        have hres : (modelLoop work mr ki (m :: ms) qs n).res = some f := by
          simp [modelLoop, hex, hst]
        have hf : ∀ e, f ≠ Final.fatalErr e := by
          intro e he
          exact hnf e (by rw [hres, he])
        have hp := attemptLoop_nonfatal work mr ki m mr 1 qs n (fun e he => by
          rw [hst] at he
          exact hf e (by injection he))
        simpa [modelLoop, hex, hst] using hp
      | advance =>
        have hp := attemptLoop_nonfatal work mr ki m mr 1 qs n (fun e he => by
          rw [hst] at he
          cases he)
        have hrest := ih (attemptLoop work mr ki m 1 mr qs n).qs
          (attemptLoop work mr ki m 1 mr qs n).n (fun e => by
            have h2 := hnf e
            simpa [modelLoop, hex, hst] using h2)
        have hn := (attemptLoop_state work mr ki m mr 1 qs n).2.2
        nth_rewrite 1 [hn] at hrest
        simp only [modelLoop, hex, Bool.false_eq_true, if_false, hst]
        exact NonFatalCalls_append hp hrest

theorem modelLoop_fatal (work : Nat → Outcome) (mr ki : Nat) :
    ∀ ms qs n err,
      (modelLoop work mr ki ms qs n).res = some (Final.fatalErr err) →
      ∃ evs0 m2, (modelLoop work mr ki ms qs n).evs = evs0 ++ [REv.call ki m2]
        ∧ NonFatalCalls work n evs0
        ∧ work (n + countCalls evs0) = Outcome.failure err
        ∧ isFatalErrStr err = true := by
  intro ms
  induction ms with
  | nil =>
    intro qs n err h
    simp [modelLoop] at h
  | cons m ms ih =>
    intro qs n err h
    by_cases hex : is_exhausted qs ki m
    · have h2 : (modelLoop work mr ki ms qs n).res = some (Final.fatalErr err) := by
        simpa [modelLoop, hex] using h
      obtain ⟨evs0, m2, he, hnf, hwk, hfat⟩ := ih qs n err h2
      refine ⟨evs0, m2, ?_, hnf, hwk, hfat⟩
      simpa [modelLoop, hex] using he
    · cases hst : (attemptLoop work mr ki m 1 mr qs n).step with
      | finished f =>
        have hres : (modelLoop work mr ki (m :: ms) qs n).res = some f := by
          simp [modelLoop, hex, hst]
        rw [h] at hres
        have hf : f = Final.fatalErr err := by
          injection hres.symm
        have hstep : (attemptLoop work mr ki m 1 mr qs n).step
            = PairStep.finished (Final.fatalErr err) := by rw [hst, hf]
        obtain ⟨evs0, he, hnf, hwk, hfat, _⟩ :=
          attemptLoop_fatal work mr ki m mr 1 qs n err hstep
        refine ⟨evs0, m, ?_, hnf, hwk, hfat⟩
        simpa [modelLoop, hex, hst] using he
      | advance =>
        have h2 : (modelLoop work mr ki ms (attemptLoop work mr ki m 1 mr qs n).qs
            (attemptLoop work mr ki m 1 mr qs n).n).res = some (Final.fatalErr err) := by
          simpa [modelLoop, hex, hst] using h
        obtain ⟨evs0, m2, he, hnf, hwk, hfat⟩ := ih _ _ err h2
        have hp := attemptLoop_nonfatal work mr ki m mr 1 qs n (fun e he2 => by
          rw [hst] at he2
          cases he2)
        have hn := (attemptLoop_state work mr ki m mr 1 qs n).2.2
        rw [hn] at hnf hwk
        refine ⟨(attemptLoop work mr ki m 1 mr qs n).evs ++ evs0, m2, ?_, ?_, ?_, hfat⟩
        · simp only [modelLoop, hex, Bool.false_eq_true, if_false, hst]
          rw [he, List.append_assoc]
        · exact NonFatalCalls_append hp hnf
        · rw [countCalls_append]
          have : n + (countCalls (attemptLoop work mr ki m 1 mr qs n).evs
              + countCalls evs0)
              = n + countCalls (attemptLoop work mr ki m 1 mr qs n).evs
                + countCalls evs0 := by omega
          rw [this]
          exact hwk

theorem keyLoop_nonfatal (work : Nat → Outcome) (mr : Nat) (chain : List String)
    (clientOk : Nat → Bool) :
    ∀ ks qs n,
      (∀ e, (keyLoop work mr chain clientOk ks qs n).res ≠ some (Final.fatalErr e)) →
      NonFatalCalls work n (keyLoop work mr chain clientOk ks qs n).evs := by
  intro ks
  induction ks with
  | nil =>
    intro qs n _
    simp [keyLoop, NonFatalCalls]
  | cons ki ks ih =>
    intro qs n hnf
    by_cases hall : chain.all (fun m => is_exhausted qs ki m)
    · have := ih qs n (fun e => by
        have h2 := hnf e
        simpa [keyLoop, hall] using h2)
      simpa [keyLoop, hall] using this
    · by_cases hc : clientOk ki
      · cases hst : (modelLoop work mr ki chain qs n).res with
        | some f =>
          have hres : (keyLoop work mr chain clientOk (ki :: ks) qs n).res
              = some f := by
            simp [keyLoop, hall, hc, hst]
          have hp := modelLoop_nonfatal work mr ki chain qs n (fun e he => by
            rw [hst] at he
            injection he with he2
            exact hnf e (by rw [hres, he2]))
          simpa [keyLoop, hall, hc, hst] using hp
        | none =>
          have hp := modelLoop_nonfatal work mr ki chain qs n (fun e he => by
            rw [hst] at he
            cases he)
          have hrest := ih (modelLoop work mr ki chain qs n).qs
            (modelLoop work mr ki chain qs n).n (fun e => by
              have h2 := hnf e
              simpa [keyLoop, hall, hc, hst] using h2)
          have hn := (modelLoop_state work mr ki chain qs n).2.2
          nth_rewrite 1 [hn] at hrest
          simp only [keyLoop, hall, Bool.false_eq_true, if_false, hc,
            Bool.not_true, hst]
          exact NonFatalCalls_append hp hrest
      · simp only [Bool.not_eq_true] at hc
        have := ih qs n (fun e => by
          have h2 := hnf e
          simpa [keyLoop, hall, hc] using h2)
        simpa [keyLoop, hall, hc] using this

theorem keyLoop_fatal (work : Nat → Outcome) (mr : Nat) (chain : List String)
    (clientOk : Nat → Bool) :
    ∀ ks qs n err,
      (keyLoop work mr chain clientOk ks qs n).res = some (Final.fatalErr err) →
      ∃ evs0 ki2 m2, (keyLoop work mr chain clientOk ks qs n).evs
            = evs0 ++ [REv.call ki2 m2]
        ∧ NonFatalCalls work n evs0
        ∧ work (n + countCalls evs0) = Outcome.failure err
        ∧ isFatalErrStr err = true := by
  intro ks
  induction ks with
  | nil =>
    intro qs n err h
    simp [keyLoop] at h
  | cons ki ks ih =>
    intro qs n err h
    by_cases hall : chain.all (fun m => is_exhausted qs ki m)
    · have h2 := ih qs n err (by simpa [keyLoop, hall] using h)
      obtain ⟨evs0, ki2, m2, he, hnf, hwk, hfat⟩ := h2
      exact ⟨evs0, ki2, m2, by simpa [keyLoop, hall] using he, hnf, hwk, hfat⟩
    · by_cases hc : clientOk ki
      · cases hst : (modelLoop work mr ki chain qs n).res with
        | some f =>
          have hres : (keyLoop work mr chain clientOk (ki :: ks) qs n).res
              = some f := by
            simp [keyLoop, hall, hc, hst]
          rw [h] at hres
          have hf : f = Final.fatalErr err := by injection hres.symm
          obtain ⟨evs0, m2, he, hnf, hwk, hfat⟩ :=
            modelLoop_fatal work mr ki chain qs n err (by rw [hst, hf])
          exact ⟨evs0, ki, m2, by simpa [keyLoop, hall, hc, hst] using he,
            hnf, hwk, hfat⟩
        | none =>
          have h2 : (keyLoop work mr chain clientOk ks
              (modelLoop work mr ki chain qs n).qs
              (modelLoop work mr ki chain qs n).n).res
                = some (Final.fatalErr err) := by
            simpa [keyLoop, hall, hc, hst] using h
          obtain ⟨evs0, ki2, m2, he, hnf, hwk, hfat⟩ := ih _ _ err h2
          have hp := modelLoop_nonfatal work mr ki chain qs n (fun e he2 => by
            rw [hst] at he2
            cases he2)
          have hn := (modelLoop_state work mr ki chain qs n).2.2
          rw [hn] at hnf hwk
          refine ⟨(modelLoop work mr ki chain qs n).evs ++ evs0, ki2, m2, ?_, ?_, ?_, hfat⟩
          · simp only [keyLoop, hall, Bool.false_eq_true, if_false, hc,
              Bool.not_true, hst]
            rw [he, List.append_assoc]
          · exact NonFatalCalls_append hp hnf
          · rw [countCalls_append]
            have : n + (countCalls (modelLoop work mr ki chain qs n).evs
                + countCalls evs0)
                = n + countCalls (modelLoop work mr ki chain qs n).evs
                  + countCalls evs0 := by omega
            rw [this]
            exact hwk
      · simp only [Bool.not_eq_true] at hc
        have h2 := ih qs n err (by simpa [keyLoop, hall, hc] using h)
        obtain ⟨evs0, ki2, m2, he, hnf, hwk, hfat⟩ := h2
        exact ⟨evs0, ki2, m2, by simpa [keyLoop, hall, hc] using he, hnf, hwk, hfat⟩

theorem append_singleton_inj {α : Type} {as bs : List α} {a b : α}
    (h : as ++ [a] = bs ++ [b]) : as = bs ∧ a = b := by
  have hlen : as.length = bs.length := by
    have := congrArg List.length h
    simpa using this
  obtain ⟨h1, h2⟩ := List.append_inj h hlen
  refine ⟨h1, ?_⟩
  injection h2

theorem attemptLoop_finished_shape (work : Nat → Outcome) (mr ki : Nat) (m : String) :
    ∀ fuel attempt qs n f,
      (attemptLoop work mr ki m attempt fuel qs n).step = PairStep.finished f →
      (∃ p, f = Final.ok p) ∨ (∃ e, f = Final.fatalErr e) := by
  intro fuel
  induction fuel with
  | zero =>
    intro attempt qs n f h
    simp [attemptLoop] at h
  | succ fl ih =>
    intro attempt qs n f h
    cases hw : work n with
    | success p =>
      have : (attemptLoop work mr ki m attempt (fl + 1) qs n).step
          = PairStep.finished (Final.ok p) := by
        simp [attemptLoop, hw]
      rw [this] at h
      injection h with h2
      exact Or.inl ⟨p, h2.symm⟩
    | failure err =>
      cases hfa : failAct err attempt mr with
      | dead => simp only [attemptLoop, hw, hfa] at h; simp at h
      | fatalRaise =>
        simp only [attemptLoop, hw, hfa] at h
        injection h with h2
        exact Or.inr ⟨err, h2.symm⟩
      | daily => simp only [attemptLoop, hw, hfa] at h; simp at h
      | rateRetry w =>
        simp only [attemptLoop, hw, hfa] at h
        exact ih (attempt + 1) qs (n + 1) f h
      | rateGiveUp => simp only [attemptLoop, hw, hfa] at h; simp at h

theorem modelLoop_res_shape (work : Nat → Outcome) (mr ki : Nat) :
    ∀ ms qs n f, (modelLoop work mr ki ms qs n).res = some f →
      (∃ p, f = Final.ok p) ∨ (∃ e, f = Final.fatalErr e) := by
  intro ms
  induction ms with
  | nil => intro qs n f h; simp [modelLoop] at h
  | cons m ms ih =>
    intro qs n f h
    by_cases hex : is_exhausted qs ki m
    · exact ih qs n f (by simpa [modelLoop, hex] using h)
    · cases hst : (attemptLoop work mr ki m 1 mr qs n).step with
      | finished f2 =>
        have : (modelLoop work mr ki (m :: ms) qs n).res = some f2 := by
          simp [modelLoop, hex, hst]
        rw [h] at this
        have hf : f2 = f := by injection this.symm
        exact attemptLoop_finished_shape work mr ki m mr 1 qs n f (by rw [hst, hf])
      | advance =>
        exact ih _ _ f (by simpa [modelLoop, hex, hst] using h)

theorem keyLoop_res_shape (work : Nat → Outcome) (mr : Nat) (chain : List String)
    (clientOk : Nat → Bool) :
    ∀ ks qs n f, (keyLoop work mr chain clientOk ks qs n).res = some f →
      (∃ p, f = Final.ok p) ∨ (∃ e, f = Final.fatalErr e) := by
  intro ks
  induction ks with
  | nil => intro qs n f h; simp [keyLoop] at h
  | cons ki ks ih =>
    intro qs n f h
    by_cases hall : chain.all (fun m => is_exhausted qs ki m)
    · exact ih qs n f (by simpa [keyLoop, hall] using h)
    · by_cases hc : clientOk ki
      · cases hst : (modelLoop work mr ki chain qs n).res with
        | some f2 =>
          have : (keyLoop work mr chain clientOk (ki :: ks) qs n).res = some f2 := by
            simp [keyLoop, hall, hc, hst]
          rw [h] at this
          have hf : f2 = f := by injection this.symm
          exact modelLoop_res_shape work mr ki chain qs n f (by rw [hst, hf])
        | none =>
          exact ih _ _ f (by simpa [keyLoop, hall, hc, hst] using h)
      · simp only [Bool.not_eq_true] at hc
        exact ih qs n f (by simpa [keyLoop, hall, hc] using h)

theorem runCore_nonfatal (keys chain : List String) (mr : Nat) (today : String)
    (qs : QS) (work : Nat → Outcome) (clientOk : Nat → Bool)
    (h : ∀ e, (runCore keys chain mr today qs work clientOk).final ≠ Final.fatalErr e) :
    NonFatalCalls work 0 (runCore keys chain mr today qs work clientOk).evs := by
  by_cases hav : (availablePairs keys.length chain qs).isEmpty
  · simp [runCore, hav, NonFatalCalls]
  · cases hst : (keyLoop work mr chain clientOk (List.range keys.length) qs 0).res with
    | some f =>
      have hfin : (runCore keys chain mr today qs work clientOk).final = f := by
        simp [runCore, hav, hst]
      have := keyLoop_nonfatal work mr chain clientOk (List.range keys.length) qs 0
        (fun e he => by
          rw [hst] at he
          injection he with he2
          exact h e (by rw [hfin, he2]))
      simpa [runCore, hav, hst] using this
    | none =>
      have := keyLoop_nonfatal work mr chain clientOk (List.range keys.length) qs 0
        (fun e he => by
          rw [hst] at he
          cases he)
      simpa [runCore, hav, hst] using this

theorem runCore_fatal (keys chain : List String) (mr : Nat) (today : String)
    (qs : QS) (work : Nat → Outcome) (clientOk : Nat → Bool) (err : String)
    (h : (runCore keys chain mr today qs work clientOk).final = Final.fatalErr err) :
    ∃ evs0 ki2 m2, (runCore keys chain mr today qs work clientOk).evs
          = evs0 ++ [REv.call ki2 m2]
      ∧ NonFatalCalls work 0 evs0
      ∧ work (countCalls evs0) = Outcome.failure err
      ∧ isFatalErrStr err = true := by
  by_cases hav : (availablePairs keys.length chain qs).isEmpty
  · rw [show (runCore keys chain mr today qs work clientOk).final
        = Final.allExhausted today (summaryAvail qs keys.length chain)
            (keys.length * chain.length) by simp [runCore, hav]] at h
    cases h
  · cases hst : (keyLoop work mr chain clientOk (List.range keys.length) qs 0).res with
    | some f =>
      have hfin : (runCore keys chain mr today qs work clientOk).final = f := by
        simp [runCore, hav, hst]
      rw [h] at hfin
      have hf : f = Final.fatalErr err := hfin.symm
      obtain ⟨evs0, ki2, m2, he, hnf, hwk, hfat⟩ :=
        keyLoop_fatal work mr chain clientOk (List.range keys.length) qs 0 err
          (by rw [hst, hf])
      refine ⟨evs0, ki2, m2, ?_, hnf, by simpa using hwk, hfat⟩
      simpa [runCore, hav, hst] using he
    | none =>
      rw [show (runCore keys chain mr today qs work clientOk).final
          = Final.allExhausted today
              (summaryAvail (keyLoop work mr chain clientOk
                (List.range keys.length) qs 0).qs keys.length chain)
              (keys.length * chain.length) by simp [runCore, hav, hst]] at h
      cases h

/-! ## Rate-limit backoff behavior of the attempt loop (claim C4) -/

theorem attemptLoop_rate_step (work : Nat → Outcome) (mr ki : Nat) (m : String)
    (attempt fuel : Nat) (qs : QS) (n : Nat) (err : String)
    (hw : work n = Outcome.failure err) (h404 : is404 err = false)
    (hq : is_quota err = true) (hd : is_daily err = false)
    (hlt : attempt < mr) :
    attemptLoop work mr ki m attempt (fuel + 1) qs n
      = ⟨(attemptLoop work mr ki m (attempt + 1) fuel qs (n + 1)).step,
         (attemptLoop work mr ki m (attempt + 1) fuel qs (n + 1)).qs,
         (attemptLoop work mr ki m (attempt + 1) fuel qs (n + 1)).n,
         REv.call ki m
           :: REv.sleep (match retryDelayOf err with
                         | some d => d + 2
                         | none => 10 * (attempt : Rat))
           :: (attemptLoop work mr ki m (attempt + 1) fuel qs (n + 1)).evs⟩ := by
  have hfa : failAct err attempt mr
      = FailAct.rateRetry (match retryDelayOf err with
                           | some d => d + 2
                           | none => 10 * (attempt : Rat)) := by
    unfold failAct
    simp [h404, hq, hd, hlt]
  simp [attemptLoop, hw, hfa]

theorem attemptLoop_head_call (work : Nat → Outcome) (mr ki : Nat) (m : String)
    (attempt fuel : Nat) (qs : QS) (n : Nat) (hf : 1 ≤ fuel) :
    (attemptLoop work mr ki m attempt fuel qs n).evs.head? = some (REv.call ki m) := by
  cases fuel with
  | zero => omega
  | succ f =>
    cases hw : work n with
    | success p => simp [attemptLoop, hw]
    | failure err =>
      cases hfa : failAct err attempt mr <;> simp [attemptLoop, hw, hfa]

theorem attemptLoop_sleep_bound (work : Nat → Outcome) (mr ki : Nat) (m : String) :
    ∀ fuel attempt qs n,
      (sleepsOf (attemptLoop work mr ki m attempt fuel qs n).evs).length
        ≤ mr - attempt := by
  intro fuel
  induction fuel with
  | zero =>
    intro attempt qs n
    simp [attemptLoop, sleepsOf_nil]
  | succ f ih =>
    intro attempt qs n
    cases hw : work n with
    | success p => simp [attemptLoop, hw, sleepsOf_cons_call, sleepsOf_nil]
    | failure err =>
      cases hfa : failAct err attempt mr with
      | dead =>
        simp only [attemptLoop, hw, hfa]
        rw [sleepsOf_cons_call, markEvs_sleeps]
        simp
      | fatalRaise =>
        simp [attemptLoop, hw, hfa, sleepsOf_cons_call, sleepsOf_nil]
      | daily =>
        simp only [attemptLoop, hw, hfa]
        rw [sleepsOf_cons_call, markEvs_sleeps]
        simp
      | rateRetry w =>
        have hlt : attempt < mr := (failAct_eq_rateRetry.mp hfa).2.2.2.1
        simp only [attemptLoop, hw, hfa]
        rw [sleepsOf_cons_call, sleepsOf_cons_sleep]
        have := ih (attempt + 1) qs (n + 1)
        simp only [List.length_cons]
        omega
      | rateGiveUp =>
        simp only [attemptLoop, hw, hfa]
        rw [sleepsOf_cons_call, markEvs_sleeps]
        simp

theorem attemptLoop_all_rate (work : Nat → Outcome) (mr ki : Nat) (m : String)
    (hall : ∀ j, isRateErr (work j) = true) :
    ∀ fuel attempt qs n, 1 ≤ fuel → attempt + fuel = mr + 1 →
      (attemptLoop work mr ki m attempt fuel qs n).step = PairStep.advance
        ∧ (ki, m) ∈ (attemptLoop work mr ki m attempt fuel qs n).qs.exhausted
        ∧ (sleepsOf (attemptLoop work mr ki m attempt fuel qs n).evs).length
            = fuel - 1 := by
  intro fuel
  induction fuel with
  | zero => intro attempt qs n h1; omega
  | succ f ih =>
    intro attempt qs n _ hsum
    cases hw : work n with
    | success p =>
      have := hall n
      rw [hw] at this
      simp [isRateErr] at this
    | failure err =>
      have hre := hall n
      rw [hw] at hre
      simp only [isRateErr, Bool.and_eq_true, Bool.not_eq_true'] at hre
      obtain ⟨⟨h404, hq⟩, hd⟩ := hre
      cases f with
      | zero =>
        have hnlt : ¬(attempt < mr) := by omega
        have hfa : failAct err attempt mr = FailAct.rateGiveUp := by
          unfold failAct
          simp [h404, hq, hd, hnlt]
        refine ⟨?_, ?_, ?_⟩
        · simp [attemptLoop, hw, hfa]
        · simp only [attemptLoop, hw, hfa]
          exact markEvs_mem qs ki m
        · simp only [attemptLoop, hw, hfa]
          rw [sleepsOf_cons_call, markEvs_sleeps]
          simp
      | succ f2 =>
        have hlt : attempt < mr := by omega
        have hstep := attemptLoop_rate_step work mr ki m attempt (f2 + 1) qs n err
          hw h404 hq hd hlt
        have hih := ih (attempt + 1) qs (n + 1) (by omega) (by omega)
        rw [hstep]
        refine ⟨hih.1, hih.2.1, ?_⟩
        simp only [sleepsOf_cons_call, sleepsOf_cons_sleep, List.length_cons, hih.2.2]
        omega

/-! ## The all-exhausted terminal error (claim C5) -/

theorem availablePairs_eq_nil (numKeys : Nat) (chain : List String) (qs : QS) :
    availablePairs numKeys chain qs = []
      ↔ ∀ ki, ki < numKeys → ∀ m, m ∈ chain → is_exhausted qs ki m = true := by
  constructor
  · intro h ki hki m hm
    by_contra hne
    have hmem : (ki, m) ∈ availablePairs numKeys chain qs := by
      unfold availablePairs
      rw [List.mem_flatMap]
      refine ⟨ki, List.mem_range.mpr hki, ?_⟩
      rw [List.mem_map]
      refine ⟨m, List.mem_filter.mpr ⟨hm, ?_⟩, rfl⟩
      simp [hne]
    rw [h] at hmem
    cases hmem
  · intro h
    unfold availablePairs
    rw [List.flatMap_eq_nil_iff]
    intro ki hki
    rw [List.map_eq_nil_iff, List.filter_eq_nil_iff]
    intro m hm
    simp [h ki (List.mem_range.mp hki) m hm]

theorem runCore_allEx_precheck (keys chain : List String) (mr : Nat)
    (today : String) (qs : QS) (work : Nat → Outcome) (clientOk : Nat → Bool)
    (h : ∀ ki, ki < keys.length → ∀ m, m ∈ chain → is_exhausted qs ki m = true) :
    runCore keys chain mr today qs work clientOk
      = ⟨Final.allExhausted today (summaryAvail qs keys.length chain)
          (keys.length * chain.length), qs, []⟩ := by
  have hav : (availablePairs keys.length chain qs).isEmpty = true := by
    rw [List.isEmpty_iff]
    exact (availablePairs_eq_nil keys.length chain qs).mpr h
  simp [runCore, hav]

theorem runCore_allEx_inv (keys chain : List String) (mr : Nat) (today : String)
    (qs : QS) (work : Nat → Outcome) (clientOk : Nat → Bool) (d : String)
    (a : Int) (t : Nat)
    (h : (runCore keys chain mr today qs work clientOk).final
        = Final.allExhausted d a t) :
    d = today ∧ t = keys.length * chain.length
      ∧ a = summaryAvail (runCore keys chain mr today qs work clientOk).qs
          keys.length chain := by
  by_cases hav : (availablePairs keys.length chain qs).isEmpty
  · have hEq : runCore keys chain mr today qs work clientOk
        = ⟨Final.allExhausted today (summaryAvail qs keys.length chain)
            (keys.length * chain.length), qs, []⟩ := by
      simp [runCore, hav]
    rw [hEq] at h ⊢
    simp only [Final.allExhausted.injEq] at h
    exact ⟨h.1.symm, h.2.2.symm, h.2.1.symm⟩
  · cases hst : (keyLoop work mr (chain) clientOk (List.range keys.length) qs 0).res with
    | some f =>
      have hfin : (runCore keys chain mr today qs work clientOk).final = f := by
        simp [runCore, hav, hst]
      rw [h] at hfin
      rcases keyLoop_res_shape work mr chain clientOk (List.range keys.length)
          qs 0 f (by rw [hst]) with ⟨p, hp⟩ | ⟨e, he⟩
      · rw [hp] at hfin
        cases hfin
      · rw [he] at hfin
        cases hfin
    | none =>
      have hEq : runCore keys chain mr today qs work clientOk
          = ⟨Final.allExhausted today
              (summaryAvail (keyLoop work mr chain clientOk
                (List.range keys.length) qs 0).qs keys.length chain)
              (keys.length * chain.length),
             (keyLoop work mr chain clientOk (List.range keys.length) qs 0).qs,
             (keyLoop work mr chain clientOk (List.range keys.length) qs 0).evs⟩ := by
        simp [runCore, hav, hst]
      rw [hEq] at h ⊢
      simp only [Final.allExhausted.injEq] at h
      exact ⟨h.1.symm, h.2.2.symm, h.2.1.symm⟩

/-! ## Dead-model classification behavior (claim C6) -/

theorem attemptLoop_dead_step (work : Nat → Outcome) (mr ki : Nat) (m : String)
    (attempt fuel : Nat) (qs : QS) (n : Nat) (err : String)
    (hw : work n = Outcome.failure err) (h404 : is404 err = true)
    (hnm : (ki, m) ∉ qs.exhausted) :
    attemptLoop work mr ki m attempt (fuel + 1) qs n
      = ⟨PairStep.advance, ⟨qs.date, qs.exhausted ++ [(ki, m)]⟩, n + 1,
         [REv.call ki m, REv.mark ki m]⟩ := by
  have hfa : failAct err attempt mr = FailAct.dead := failAct_eq_dead.mpr h404
  simp [attemptLoop, hw, hfa, markEvs, mark_exhausted, hnm]

theorem attemptLoop_giveup_step (work : Nat → Outcome) (mr ki : Nat) (m : String)
    (attempt fuel : Nat) (qs : QS) (n : Nat) (err : String)
    (hw : work n = Outcome.failure err) (h404 : is404 err = false)
    (hq : is_quota err = true) (hd : is_daily err = false)
    (hnlt : ¬(attempt < mr)) (hnm : (ki, m) ∉ qs.exhausted) :
    attemptLoop work mr ki m attempt (fuel + 1) qs n
      = ⟨PairStep.advance, ⟨qs.date, qs.exhausted ++ [(ki, m)]⟩, n + 1,
         [REv.call ki m, REv.mark ki m]⟩ := by
  have hfa : failAct err attempt mr = FailAct.rateGiveUp := by
    unfold failAct
    simp [h404, hq, hd, hnlt]
  simp [attemptLoop, hw, hfa, markEvs, mark_exhausted, hnm]

/-! ## Claim theorems -/

/-- C9: `mark_exhausted` is idempotent.  If the pair is already in the
exhausted set the call is a no-op — the state is returned unchanged and
no flush to the backing file happens (`false`).  Otherwise exactly that
one entry is appended at the end, the state is flushed (`true`), and
the date and all prior entries are unchanged.  Marking an already
marked pair (in particular, marking twice) changes nothing. -/
theorem c9_mark_exhausted_idempotent (qs : QS) (ki : Nat) (m : String) :
    ((ki, m) ∈ qs.exhausted → mark_exhausted qs ki m = (qs, false))
      ∧ ((ki, m) ∉ qs.exhausted →
          mark_exhausted qs ki m
            = (⟨qs.date, qs.exhausted ++ [(ki, m)]⟩, true))
      ∧ mark_exhausted (mark_exhausted qs ki m).1 ki m
          = ((mark_exhausted qs ki m).1, false) := by
  refine ⟨fun h => by simp [mark_exhausted, h],
    fun h => by simp [mark_exhausted, h], ?_⟩
  by_cases h : (ki, m) ∈ qs.exhausted
  · simp [mark_exhausted, h]
  · simp [mark_exhausted, h]

/-- C9 witness: marking (0, "a") in a state that already holds it is a
no-op without flush; marking (1, "b") appends it and flushes. -/
theorem c9_witness :
    mark_exhausted ⟨"D", [(0, "a")]⟩ 0 "a" = (⟨"D", [(0, "a")]⟩, false)
      ∧ mark_exhausted ⟨"D", [(0, "a")]⟩ 1 "b"
          = (⟨"D", [(0, "a")] ++ [(1, "b")]⟩, true) :=
  ⟨(c9_mark_exhausted_idempotent ⟨"D", [(0, "a")]⟩ 0 "a").1 (by decide),
   (c9_mark_exhausted_idempotent ⟨"D", [(0, "a")]⟩ 1 "b").2.1 (by decide)⟩

/-- C10: the diagnostic summary computes `available` as
`len(api_keys) * len(models) - len(exhausted)` over the integers,
counting every entry of the persisted exhausted list — also entries
outside the given keys × models cross product (e.g. recorded under a
per-call chain override or a larger key pool).  Consequently the
reported count can undercount true availability and can be negative:
with one key, one model, and two out-of-product entries it reports -1
even though the single real pair (0, "m") is not exhausted.  The
summary is a pure function of the state (the model reads `qs` and
returns a number), so reading it never mutates the state. -/
theorem c10_summary_counts_all_entries :
    (∀ qs numKeys chain, summaryAvail qs numKeys chain
        = (numKeys * chain.length : Int) - (qs.exhausted.length : Int))
      ∧ summaryAvail ⟨"D", [(5, "x"), (6, "y")]⟩ 1 ["m"] = -1
      ∧ is_exhausted ⟨"D", [(5, "x"), (6, "y")]⟩ 0 "m" = false :=
  ⟨fun _ _ _ => rfl, by decide, by decide⟩

/-- C7 counterexample: a corrupt backing file that is valid JSON but
not an object — here the JSON document `[]` — makes `_load` raise an
uncaught `AttributeError` at `state.get("date")` (the except clause
catches only `FileNotFoundError` and `json.JSONDecodeError`), instead
of yielding a fresh empty state.  This refutes the claim that loading
with any corrupt backing file yields an empty, freshly-dated state
rather than an error. -/
theorem c7_nonobject_json_raises :
    quota_load "2026-10-12" (FileContent.decoded (JVal.jarr []))
      = LoadResult.uncaught "AttributeError" := rfl

/-- C7 (amended): loading on a UTC day different from the persisted
`date` yields the empty exhausted set stamped with the current day,
regardless of the other persisted contents; a missing file, or a file
that cannot be decoded as JSON, likewise yields the empty freshly-dated
state.  However a corrupt file that decodes to JSON of non-object shape
raises an uncaught error instead of being tolerated. -/
theorem c7_load_reset_amended (today : String) :
    (∀ fields, jIsStrEq (jGet fields "date") today = false →
        quota_load today (FileContent.decoded (JVal.jobj fields))
          = LoadResult.ok (freshState today))
      ∧ quota_load today FileContent.missing = LoadResult.ok (freshState today)
      ∧ quota_load today FileContent.undecodable = LoadResult.ok (freshState today)
      ∧ (∀ j, (∀ fields, j ≠ JVal.jobj fields) →
          quota_load today (FileContent.decoded j)
            = LoadResult.uncaught "AttributeError") := by
  refine ⟨fun fields h => by simp [quota_load, h], rfl, rfl, ?_⟩
  intro j hj
  cases j with
  | jnull => rfl
  | jbool b => rfl
  | jnum n => rfl
  | jstr s => rfl
  | jarr xs => rfl
  | jobj fields => exact absurd rfl (hj fields)

/-- C7 witness: a state persisted on 2026-10-11 and loaded on
2026-10-12 yields the fresh empty state for 2026-10-12, regardless of
its recorded exhausted entries. -/
theorem c7_witness :
    quota_load "2026-10-12" (FileContent.decoded (JVal.jobj
        [("date", JVal.jstr "2026-10-11"),
         ("exhausted", JVal.jarr [entryToJson (0, "m")])]))
      = LoadResult.ok (freshState "2026-10-12") :=
  (c7_load_reset_amended "2026-10-12").1
    [("date", JVal.jstr "2026-10-11"),
     ("exhausted", JVal.jarr [entryToJson (0, "m")])] (by decide)

/-- C8 counterexample: with every credential slot blank the process
trace is `[quotaDiskLoad, configError]` — the quota-state disk load of
`_QuotaState()._load` happens at module import (source line 94),
before `execute()` raises the configuration error.  So quota-state
disk I/O *is* performed in the process, and the state is loaded
eagerly at import rather than lazily on first use, refuting the claim
as stated. -/
theorem c8_quota_io_before_config_error :
    PEv.quotaDiskLoad ∈ processTrace [some "", some "   ", none]
      ∧ processTrace [some "", some "   ", none]
          = [PEv.quotaDiskLoad, PEv.configError] := by
  refine ⟨?_, by decide⟩
  have h : processTrace [some "", some "   ", none]
      = [PEv.quotaDiskLoad, PEv.configError] := by decide
  rw [h]
  exact List.mem_cons_self _ _

/-- C8 (amended): when the credential configuration yields an empty
pool, `execute()` raises the configuration error before evaluating any
quota-state operation within the call itself — the call's trace is just
the configuration error, preceding the availability precheck that would
be the first quota-state access — and `gemini_with_retry` returns no
result for any unit of work.  But the quota state is not loaded lazily
on first use: its disk load runs once at module import, before any
`execute()`, so the process performs quota-state disk I/O even in this
case. -/
theorem c8_config_error_amended (candidates : List (Option String))
    (h : load_api_keys candidates = none) :
    executeTrace candidates = [PEv.configError]
      ∧ processTrace candidates = [PEv.quotaDiskLoad, PEv.configError]
      ∧ ∀ models mr today qs work clientOk,
          gemini_with_retry candidates models mr today qs work clientOk = none := by
  refine ⟨?_, ?_, ?_⟩
  · simp [executeTrace, h]
  · simp [processTrace, importTrace, executeTrace, h]
  · intro models mr today qs work clientOk
    simp [gemini_with_retry, h]

/-- C8 witness: the amended claim at a concrete all-blank
configuration. -/
theorem c8_witness :
    executeTrace [some "", some "   ", none] = [PEv.configError]
      ∧ processTrace [some "", some "   ", none]
          = [PEv.quotaDiskLoad, PEv.configError] :=
  ⟨(c8_config_error_amended [some "", some "   ", none] (by decide)).1,
   (c8_config_error_amended [some "", some "   ", none] (by decide)).2.1⟩

/-- C6: the classifier's rules apply in priority order.  Any error
matching the not-found class is classified `Dead`, even when the same
text also matches the quota/rate-limit signatures; the rate-limit
sub-classification is reached only for errors outside the not-found
class.  Behaviorally, a dead-classified failure marks the pair after
that single attempt, abandons the pair's remaining attempts (no retry,
regardless of remaining fuel), and advances. -/
theorem c6_dead_classification_priority :
    (∀ err, is404 err = true → classifyErr err = ErrClass.dead)
      ∧ (∀ err d, classifyErr err = ErrClass.rateLimited d →
          is404 err = false ∧ is_quota err = true ∧ is_daily err = false
            ∧ d = retryDelayOf err)
      ∧ (∀ (work : Nat → Outcome) mr ki m attempt fuel qs n err,
          work n = Outcome.failure err → is404 err = true →
          (ki, m) ∉ qs.exhausted →
          attemptLoop work mr ki m attempt (fuel + 1) qs n
            = ⟨PairStep.advance, ⟨qs.date, qs.exhausted ++ [(ki, m)]⟩, n + 1,
               [REv.call ki m, REv.mark ki m]⟩) := by
  refine ⟨?_, ?_, ?_⟩
  · intro err h
    simp [classifyErr, h]
  · intro err d h
    unfold classifyErr at h
    split_ifs at h with h1 h2 h3
    refine ⟨by simpa using h1, by simpa using h2, by simpa using h3, ?_⟩
    injection h with hd
    exact hd.symm
  · intro work mr ki m attempt fuel qs n err hw h404 hnm
    exact attemptLoop_dead_step work mr ki m attempt fuel qs n err hw h404 hnm

/-- C6 witness: the error text "404 429 quota limit" matches both the
not-found class and the quota/rate-limit signatures; it is classified
`Dead`, and one attempt on the fresh pair (0, "m0") marks it and
advances with no retry even though a second attempt remained. -/
theorem c6_witness :
    classifyErr "404 429 quota limit" = ErrClass.dead
      ∧ is_quota "404 429 quota limit" = true
      ∧ attemptLoop (fun _ => Outcome.failure "404 429 quota limit") 2 0 "m0"
          1 (1 + 1) ⟨"D", []⟩ 0
          = ⟨PairStep.advance, ⟨"D", [] ++ [(0, "m0")]⟩, 0 + 1,
             [REv.call 0 "m0", REv.mark 0 "m0"]⟩ :=
  ⟨c6_dead_classification_priority.1 "404 429 quota limit" (by decide),
   by decide,
   c6_dead_classification_priority.2.2 (fun _ => Outcome.failure "404 429 quota limit")
     2 0 "m0" 1 1 ⟨"D", []⟩ 0 "404 429 quota limit" rfl (by decide) (by decide)⟩

/-- C1: `execute()` attempts pairs in exactly the fixed priority order:
for any pool, chain, quota state and unit-of-work behavior, the
sequence of attempted pairs decomposes into per-credential segments in
pool order, each segment into blocks of consecutive attempts on one
model following chain order, with pairs skipped (`KeyTrace`).  In the
concrete 2-credentials × 3-models scenario with an empty exhausted set,
the first attempted pair is (credential 0, model 0); its single attempt
fails with a dead-classified (404) error, and the second attempted pair
is (credential 0, model 1), which succeeds. -/
theorem c1_pairs_attempted_in_priority_order :
    (∀ (keys chain : List String) mr today qs work clientOk,
        KeyTrace chain (List.range keys.length)
          (callPairs (runCore keys chain mr today qs work clientOk).evs))
      ∧ callPairs (runCore ["k1", "k2"] ["m0", "m1", "m2"] 2 "2099-01-01"
            ⟨"2099-01-01", []⟩
            (fun n => if n = 0 then Outcome.failure "404 NOT_FOUND"
                      else Outcome.success "ok")
            (fun _ => true)).evs
          = [(0, "m0"), (0, "m1")]
      ∧ (runCore ["k1", "k2"] ["m0", "m1", "m2"] 2 "2099-01-01"
            ⟨"2099-01-01", []⟩
            (fun n => if n = 0 then Outcome.failure "404 NOT_FOUND"
                      else Outcome.success "ok")
            (fun _ => true)).final = Final.ok "ok"
      ∧ is404 "404 NOT_FOUND" = true := by
  refine ⟨?_, by decide, by decide, by decide⟩
  intro keys chain mr today qs work clientOk
  by_cases hav : (availablePairs keys.length chain qs).isEmpty
  · have hEq : runCore keys chain mr today qs work clientOk
        = ⟨Final.allExhausted today (summaryAvail qs keys.length chain)
            (keys.length * chain.length), qs, []⟩ := by
      simp [runCore, hav]
    rw [hEq]
    rw [show (⟨Final.allExhausted today (summaryAvail qs keys.length chain)
        (keys.length * chain.length), qs, []⟩ : RunOut).evs = [] from rfl]
    rw [callPairs_nil]
    exact KeyTrace.nil _
  · cases hst : (keyLoop work mr chain clientOk (List.range keys.length) qs 0).res with
    | some f =>
      have hEq : (runCore keys chain mr today qs work clientOk).evs
          = (keyLoop work mr chain clientOk (List.range keys.length) qs 0).evs := by
        simp [runCore, hav, hst]
      rw [hEq]
      exact keyLoop_trace work mr chain clientOk (List.range keys.length) qs 0
    | none =>
      have hEq : (runCore keys chain mr today qs work clientOk).evs
          = (keyLoop work mr chain clientOk (List.range keys.length) qs 0).evs := by
        simp [runCore, hav, hst]
      rw [hEq]
      exact keyLoop_trace work mr chain clientOk (List.range keys.length) qs 0

/-- C5: if every (credential, model) pair of the candidate product is
already exhausted in today's state, `execute()` returns the terminal
"all exhausted" error carrying the diagnostic summary (date, available
and total counts) without a single underlying call and without touching
the state; and whenever the run ends with the terminal "all exhausted"
error — the precheck, or all candidates consumed without success — the
error carries today's date, the full product as total, and the summary
count computed from the final state. -/
theorem c5_all_exhausted_terminal (keys chain : List String) (mr : Nat)
    (today : String) (qs : QS) (work : Nat → Outcome) (clientOk : Nat → Bool) :
    ((∀ ki, ki < keys.length → ∀ m, m ∈ chain → is_exhausted qs ki m = true) →
        runCore keys chain mr today qs work clientOk
          = ⟨Final.allExhausted today (summaryAvail qs keys.length chain)
              (keys.length * chain.length), qs, []⟩)
      ∧ (∀ d a t, (runCore keys chain mr today qs work clientOk).final
            = Final.allExhausted d a t →
          d = today ∧ t = keys.length * chain.length
            ∧ a = summaryAvail (runCore keys chain mr today qs work clientOk).qs
                keys.length chain) :=
  ⟨runCore_allEx_precheck keys chain mr today qs work clientOk,
   fun d a t h => runCore_allEx_inv keys chain mr today qs work clientOk d a t h⟩

/-- C5 witness: 3 credentials × 3 models with all nine pairs pre-marked
exhausted: the run returns the terminal error with available = 0 and
total = 9, an unchanged state, and an empty event list (zero underlying
calls). -/
theorem c5_witness :
    runCore ["a", "b", "c"] ["x", "y", "z"] 2 "D"
        ⟨"D", [(0, "x"), (0, "y"), (0, "z"), (1, "x"), (1, "y"), (1, "z"),
               (2, "x"), (2, "y"), (2, "z")]⟩
        (fun _ => Outcome.success "p") (fun _ => true)
      = ⟨Final.allExhausted "D" 0 9,
         ⟨"D", [(0, "x"), (0, "y"), (0, "z"), (1, "x"), (1, "y"), (1, "z"),
                (2, "x"), (2, "y"), (2, "z")]⟩, []⟩ := by
  have h := (c5_all_exhausted_terminal ["a", "b", "c"] ["x", "y", "z"] 2 "D"
      ⟨"D", [(0, "x"), (0, "y"), (0, "z"), (1, "x"), (1, "y"), (1, "z"),
             (2, "x"), (2, "y"), (2, "z")]⟩
      (fun _ => Outcome.success "p") (fun _ => true)).1 (by decide)
  rw [h]
  decide

/-- C2: exhaustion marks are permanent within the day.  (i) A pair in
the exhausted set when `execute()` starts is never attempted.  (ii) If
a pair is marked mid-run, no later call of the same run targets it, and
it is in the final (flushed) state.  (iii) Any later `execute()` in the
same process — or in a fresh process, starting from the persisted final
state — never attempts a pair recorded in that state.  (iv) A same-day
reload of the persisted final state returns it unchanged, so (iii)
covers the fresh-process case. -/
theorem c2_exhausted_never_reattempted (keys chain : List String) (mr : Nat)
    (today : String) (qs : QS) (work : Nat → Outcome) (clientOk : Nat → Bool)
    (P : Nat × String) :
    (P ∈ qs.exhausted →
        P ∉ callPairs (runCore keys chain mr today qs work clientOk).evs)
      ∧ (∀ pre suf, (runCore keys chain mr today qs work clientOk).evs
            = pre ++ REv.mark P.1 P.2 :: suf →
          REv.call P.1 P.2 ∉ suf
            ∧ P ∈ (runCore keys chain mr today qs work clientOk).qs.exhausted)
      ∧ (P ∈ (runCore keys chain mr today qs work clientOk).qs.exhausted →
          ∀ (keys2 chain2 : List String) mr2 today2 work2 clientOk2,
            P ∉ callPairs (runCore keys2 chain2 mr2 today2
              (runCore keys chain mr today qs work clientOk).qs
              work2 clientOk2).evs)
      ∧ (qs.date = today →
          quota_load today (FileContent.decoded
              (qsToJson (runCore keys chain mr today qs work clientOk).qs))
            = LoadResult.ok
                (qsToJson (runCore keys chain mr today qs work clientOk).qs)) := by
  have hok := runCore_callsOk keys chain mr today qs work clientOk
  refine ⟨?_, ?_, ?_, ?_⟩
  · intro hmem
    exact callsOk_no_pair hok hmem
  · intro pre suf hevs
    constructor
    · have hsplit : (runCore keys chain mr today qs work clientOk).evs
          = (pre ++ [REv.mark P.1 P.2]) ++ suf := by
        rw [hevs]
        simp
      rw [hsplit] at hok
      have h2 := callsOk_split hok
      have hPmem : P ∈ qs.exhausted ++ marksOf (pre ++ [REv.mark P.1 P.2]) := by
        rw [marksOf_append]
        refine List.mem_append_right _ (List.mem_append_right _ ?_)
        rw [marksOf_cons_mark, marksOf_nil]
        rw [Prod.mk.eta]
        exact List.mem_singleton_self P
      exact callsOk_no_call h2 hPmem
    · have hs := (runCore_state keys chain mr today qs work clientOk).1
      rw [hs, hevs, marksOf_append, marksOf_cons_mark]
      refine List.mem_append_right _ (List.mem_append_right _ ?_)
      rw [Prod.mk.eta]
      exact List.mem_cons_self P _
  · intro hmem keys2 chain2 mr2 today2 work2 clientOk2
    exact callsOk_no_pair
      (runCore_callsOk keys2 chain2 mr2 today2 _ work2 clientOk2) hmem
  · intro hd
    have hdate := (runCore_state keys chain mr today qs work clientOk).2
    rw [hd] at hdate
    simp [quota_load, qsToJson, jGet, jIsStrEq, hdate]

/-- C2 witness: one credential and chain ["a", "b"]; the first call on
(0, "a") fails daily-exhausted, marking it; the theorem applied at the
resulting trace shows (0, "a") is never called after its mark, sits in
the final state, and a same-day reload of the persisted state returns
it unchanged. -/
theorem c2_witness :
    (REv.call 0 "a" ∉ [REv.call 0 "b"]
        ∧ (0, "a") ∈ (runCore ["k"] ["a", "b"] 2 "D" ⟨"D", []⟩
            (fun n => if n = 0 then Outcome.failure "429 quota exceeded"
                      else Outcome.success "yay")
            (fun _ => true)).qs.exhausted)
      ∧ quota_load "D" (FileContent.decoded
            (qsToJson (runCore ["k"] ["a", "b"] 2 "D" ⟨"D", []⟩
              (fun n => if n = 0 then Outcome.failure "429 quota exceeded"
                        else Outcome.success "yay")
              (fun _ => true)).qs))
          = LoadResult.ok
              (qsToJson (runCore ["k"] ["a", "b"] 2 "D" ⟨"D", []⟩
                (fun n => if n = 0 then Outcome.failure "429 quota exceeded"
                          else Outcome.success "yay")
                (fun _ => true)).qs) :=
  ⟨(c2_exhausted_never_reattempted ["k"] ["a", "b"] 2 "D" ⟨"D", []⟩
      (fun n => if n = 0 then Outcome.failure "429 quota exceeded"
                else Outcome.success "yay")
      (fun _ => true) (0, "a")).2.1 [REv.call 0 "a"] [REv.call 0 "b"] (by decide),
   (c2_exhausted_never_reattempted ["k"] ["a", "b"] 2 "D" ⟨"D", []⟩
      (fun n => if n = 0 then Outcome.failure "429 quota exceeded"
                else Outcome.success "yay")
      (fun _ => true) (0, "a")).2.2.2 rfl⟩

/-- C3: a fatal-classified failure (neither not-found nor any quota
signature) aborts `execute()` at once: the failing call is the last
event of the run (no retry of the pair, no further pairs, no sleep, no
mark afterwards), the error is propagated as the run's result, and the
exhausted set is exactly as it stood at the moment of that call (the
marks of the earlier events only — nothing from this error). -/
theorem c3_fatal_propagates_immediately (keys chain : List String) (mr : Nat)
    (today : String) (qs : QS) (work : Nat → Outcome) (clientOk : Nat → Bool)
    (pre suf : List REv) (ki : Nat) (m : String) (err : String)
    (hevs : (runCore keys chain mr today qs work clientOk).evs
        = pre ++ REv.call ki m :: suf)
    (hout : work (countCalls pre) = Outcome.failure err)
    (h404 : is404 err = false) (hq : is_quota err = false) :
    suf = []
      ∧ (runCore keys chain mr today qs work clientOk).final = Final.fatalErr err
      ∧ (runCore keys chain mr today qs work clientOk).qs.exhausted
          = qs.exhausted ++ marksOf pre := by
  have hfat : isFatalErrStr err = true := by
    simp [isFatalErrStr, h404, hq]
  by_cases hfin : ∀ e, (runCore keys chain mr today qs work clientOk).final
      ≠ Final.fatalErr e
  · exfalso
    have hnf := runCore_nonfatal keys chain mr today qs work clientOk hfin
    rw [hevs] at hnf
    have hcontra := NonFatalCalls_at hnf (by simpa using hout)
    rw [hfat] at hcontra
    cases hcontra
  · push_neg at hfin
    obtain ⟨e, he⟩ := hfin
    obtain ⟨evs0, ki2, m2, he2, hnf0, hwk, hfat2⟩ :=
      runCore_fatal keys chain mr today qs work clientOk e he
    have hevs2 : evs0 ++ [REv.call ki2 m2] = pre ++ REv.call ki m :: suf := by
      rw [← he2, ← hevs]
    rcases List.eq_nil_or_concat suf with hnil | ⟨ss, elast, hconcat⟩
    · subst hnil
      have h2 : pre ++ [REv.call ki m] = evs0 ++ [REv.call ki2 m2] := hevs2.symm
      obtain ⟨hpre, hcall⟩ := append_singleton_inj h2
      have herr : e = err := by
        rw [hpre] at hout
        rw [hout] at hwk
        injection hwk with h3
        exact h3.symm
      refine ⟨rfl, by rw [he, herr], ?_⟩
      have hs := (runCore_state keys chain mr today qs work clientOk).1
      rw [hs, hevs, marksOf_append, marksOf_cons_call, marksOf_nil,
        List.append_nil]
    · exfalso
      subst hconcat
      rw [List.concat_eq_append] at hevs2
      have h2 : (pre ++ REv.call ki m :: ss) ++ [elast]
          = evs0 ++ [REv.call ki2 m2] := by
        rw [hevs2]
        simp
      obtain ⟨hpre, _⟩ := append_singleton_inj h2
      rw [← hpre] at hnf0
      have hcontra := NonFatalCalls_at hnf0 (by simpa using hout)
      rw [hfat] at hcontra
      cases hcontra

/-- C3 witness: a unit of work that always raises "boom" (no quota or
not-found signature): the run's only event is the single call, the
error is propagated, and no pair is marked. -/
theorem c3_witness :
    (runCore ["k"] ["a"] 2 "D" ⟨"D", []⟩ (fun _ => Outcome.failure "boom")
        (fun _ => true)).final = Final.fatalErr "boom"
      ∧ (runCore ["k"] ["a"] 2 "D" ⟨"D", []⟩ (fun _ => Outcome.failure "boom")
          (fun _ => true)).qs.exhausted = [] := by
  have h := c3_fatal_propagates_immediately ["k"] ["a"] 2 "D" ⟨"D", []⟩
    (fun _ => Outcome.failure "boom") (fun _ => true) [] [] 0 "a" "boom"
    (by decide) rfl (by decide) (by decide)
  exact ⟨h.2.1, by simpa [marksOf_nil] using h.2.2⟩

/-- C4 counterexample: when no server-suggested delay is present the
default waits are `10 * attempt` — linear, not exponential.  With
`maxRetriesPerPair = 4` and a rate-limited error carrying no
`retryDelay`, the three waits are 10, 20, 30 seconds, and 10, 20, 30 is
not a geometric progression (20/10 ≠ 30/20).  This refutes the claim's
"an exponential default delay when none is present". -/
theorem c4_default_backoff_not_exponential :
    sleepsOf (attemptLoop (fun _ => Outcome.failure "429 RESOURCE_EXHAUSTED")
        4 0 "m0" 1 4 ⟨"D", []⟩ 0).evs = [10, 20, 30]
      ∧ ¬((20 : Rat) / 10 = 30 / 20) := by
  constructor
  · have hrd : retryDelayOf "429 RESOURCE_EXHAUSTED" = none := by decide
    have h1 := attemptLoop_rate_step
      (fun _ => Outcome.failure "429 RESOURCE_EXHAUSTED") 4 0 "m0" 1 3 ⟨"D", []⟩ 0
      "429 RESOURCE_EXHAUSTED" rfl (by decide) (by decide) (by decide) (by decide)
    have h2 := attemptLoop_rate_step
      (fun _ => Outcome.failure "429 RESOURCE_EXHAUSTED") 4 0 "m0" 2 2 ⟨"D", []⟩ 1
      "429 RESOURCE_EXHAUSTED" rfl (by decide) (by decide) (by decide) (by decide)
    have h3 := attemptLoop_rate_step
      (fun _ => Outcome.failure "429 RESOURCE_EXHAUSTED") 4 0 "m0" 3 1 ⟨"D", []⟩ 2
      "429 RESOURCE_EXHAUSTED" rfl (by decide) (by decide) (by decide) (by decide)
    have h4 := attemptLoop_giveup_step
      (fun _ => Outcome.failure "429 RESOURCE_EXHAUSTED") 4 0 "m0" 4 0 ⟨"D", []⟩ 3
      "429 RESOURCE_EXHAUSTED" rfl (by decide) (by decide) (by decide) (by decide)
      (by decide)
    rw [hrd] at h1 h2 h3
    norm_num at h1 h2 h3 h4
    simp only [h1, h2, h3, h4, sleepsOf_cons_call, sleepsOf_cons_sleep,
      sleepsOf_cons_mark, sleepsOf_nil]
  · norm_num

/-- C4 (amended): on a rate-limited failure (quota signature, neither
not-found nor daily) with attempts remaining, the attempt loop sleeps
for the parsed server-suggested delay plus a fixed 2-second buffer, or
a linearly increasing default of `10 * attempt` seconds when no delay
is present, and then retries the same pair (the next event is again a
call on that pair); at most `maxRetriesPerPair - 1` waits happen for
one pair, and when every attempt is rate-limited the pair ends marked
exhausted with the loop advancing after exactly
`maxRetriesPerPair - 1` waits. -/
theorem c4_ratelimit_retry_amended :
    (∀ (work : Nat → Outcome) mr ki m attempt fuel qs n err,
        work n = Outcome.failure err → is404 err = false → is_quota err = true →
        is_daily err = false → attempt < mr →
        attemptLoop work mr ki m attempt (fuel + 1) qs n
          = ⟨(attemptLoop work mr ki m (attempt + 1) fuel qs (n + 1)).step,
             (attemptLoop work mr ki m (attempt + 1) fuel qs (n + 1)).qs,
             (attemptLoop work mr ki m (attempt + 1) fuel qs (n + 1)).n,
             REv.call ki m
               :: REv.sleep (match retryDelayOf err with
                             | some d => d + 2
                             | none => 10 * (attempt : Rat))
               :: (attemptLoop work mr ki m (attempt + 1) fuel qs (n + 1)).evs⟩)
      ∧ (∀ (work : Nat → Outcome) mr ki m attempt fuel qs n, 1 ≤ fuel →
          (attemptLoop work mr ki m attempt fuel qs n).evs.head?
            = some (REv.call ki m))
      ∧ (∀ (work : Nat → Outcome) mr ki m qs n,
          (sleepsOf (attemptLoop work mr ki m 1 mr qs n).evs).length ≤ mr - 1)
      ∧ (∀ (work : Nat → Outcome) mr ki m qs n, 1 ≤ mr →
          (∀ j, isRateErr (work j) = true) →
          (attemptLoop work mr ki m 1 mr qs n).step = PairStep.advance
            ∧ (ki, m) ∈ (attemptLoop work mr ki m 1 mr qs n).qs.exhausted
            ∧ (sleepsOf (attemptLoop work mr ki m 1 mr qs n).evs).length
                = mr - 1) := by
  refine ⟨?_, ?_, ?_, ?_⟩
  · intro work mr ki m attempt fuel qs n err hw h404 hq hd hlt
    exact attemptLoop_rate_step work mr ki m attempt fuel qs n err hw h404 hq hd hlt
  · intro work mr ki m attempt fuel qs n hf
    exact attemptLoop_head_call work mr ki m attempt fuel qs n hf
  · intro work mr ki m qs n
    exact attemptLoop_sleep_bound work mr ki m mr 1 qs n
  · intro work mr ki m qs n h1 hall
    exact attemptLoop_all_rate work mr ki m hall mr 1 qs n h1 (by omega)

/-- C4 witness: maxRetriesPerPair = 2 with a rate-limited error whose
suggested delay is 5 seconds: exactly one wait of 5 + 2 = 7 seconds
happens (= maxRetriesPerPair - 1 waits), after which the pair is
marked exhausted and the loop advances. -/
theorem c4_witness :
    sleepsOf (attemptLoop (fun _ => Outcome.failure "429 retryDelay: 5") 2 0 "m0"
        1 2 ⟨"D", []⟩ 0).evs = [7]
      ∧ (attemptLoop (fun _ => Outcome.failure "429 retryDelay: 5") 2 0 "m0"
          1 2 ⟨"D", []⟩ 0).step = PairStep.advance
      ∧ (0, "m0") ∈ (attemptLoop (fun _ => Outcome.failure "429 retryDelay: 5")
          2 0 "m0" 1 2 ⟨"D", []⟩ 0).qs.exhausted
      ∧ (sleepsOf (attemptLoop (fun _ => Outcome.failure "429 retryDelay: 5")
          2 0 "m0" 1 2 ⟨"D", []⟩ 0).evs).length = 2 - 1 := by
  have hc := c4_ratelimit_retry_amended.2.2.2
    (fun _ => Outcome.failure "429 retryDelay: 5") 2 0 "m0" ⟨"D", []⟩ 0
    (by omega)
    (fun _ => (by decide : isRateErr (Outcome.failure "429 retryDelay: 5") = true))
  refine ⟨?_, hc.1, hc.2.1, hc.2.2⟩
  have hrd : retryDelayOf "429 retryDelay: 5" = some 5 := by decide
  have h1 := c4_ratelimit_retry_amended.1
    (fun _ => Outcome.failure "429 retryDelay: 5") 2 0 "m0" 1 1 ⟨"D", []⟩ 0
    "429 retryDelay: 5" rfl (by decide) (by decide) (by decide) (by decide)
  have h2 := attemptLoop_giveup_step
    (fun _ => Outcome.failure "429 retryDelay: 5") 2 0 "m0" 2 0 ⟨"D", []⟩ 1
    "429 retryDelay: 5" rfl (by decide) (by decide) (by decide) (by decide)
    (by decide)
  rw [hrd] at h1
  norm_num at h1 h2
  simp only [h1, h2, sleepsOf_cons_call, sleepsOf_cons_sleep, sleepsOf_cons_mark,
    sleepsOf_nil]
